import Mathlib

/-!
Verification of the hybrid retrieval engine of the Knowella RAG backend.

This file gives a shallow embedding, in Lean 4, of the algorithmic core of the
repository:

* the BM25 tokenizer and scorer          (`api/src/services/bm25.service.js`),
* the sentence chunker                   (`api/src/services/chunker.service.js`),
* query expansion, reciprocal rank fusion and the cached `retrieve`
  entry point                            (`api/src/services/retrieval.service.js`),

followed by theorems settling the specification's claims about these components.

Modelling conventions:

* JavaScript numbers are modelled as exact rationals (`ℚ`); all score
  arithmetic in the source stays well inside the exactly-representable range.
* `Math.log` is an abstract parameter `log : ℚ → ℚ`: the BM25 theorems hold
  for every interpretation of the logarithm.
* JavaScript's `Array.prototype.sort` with comparator `(a, b) => b.score - a.score`
  is a stable descending sort; it is modelled by `List.insertionSort`, which is
  stable, with the matching relation.  A stable sort of a list under a total
  preorder is unique, so any stable implementation yields the same list.
* `Map` objects (insertion ordered, `set` replacing in place) are modelled as
  association lists with explicit `set` / `get` operations.
* String indices: all strings exercised by the claims are ASCII, where
  JavaScript UTF-16 lengths and Lean codepoint lengths agree.
* External collaborators (embedding provider, vector database) are modelled as
  an explicit `Backends` record of deterministic functions, as the spec treats
  them as black boxes.
-/

/-! ## Tokenizer (`bm25.service.js`, `BM25Service.tokenize`) -/

/-- JavaScript `toLowerCase` restricted to ASCII (the only case mapping that
can survive the tokenizer's `[^\w\s.-]` strip). -/
def jsToLower (c : Char) : Char :=
  if 'A' ≤ c ∧ c ≤ 'Z' then Char.ofNat (c.toNat + 32) else c

/-- The ASCII whitespace class of the regexes `\s` / `split(/\s+/)`. -/
def jsIsSpace (c : Char) : Bool :=
  c = ' ' || c = '\t' || c = '\n' || c = '\r' || c = Char.ofNat 11 || c = Char.ofNat 12

/-- The regex word class `\w`: alphanumerics and underscore. -/
def isWordChar (c : Char) : Bool :=
  ('a' ≤ c && c ≤ 'z') || ('A' ≤ c && c ≤ 'Z') || ('0' ≤ c && c ≤ '9') || c = '_'

/-- One step of `.replace(/(\d+)%/g, '$1percent')`: a maximal digit run
followed by `%` keeps the digits and rewrites the `%` to `percent`.
Fueled recursion (the fuel is only a termination device; `replacePercent`
supplies fuel equal to the list length, which is never exhausted). -/
def replacePercentF : ℕ → List Char → List Char
  | 0, l => l
  | _ + 1, [] => []
  | f + 1, c :: cs =>
    if c.isDigit then
      match cs.dropWhile Char.isDigit with
      | '%' :: rest2 =>
        (c :: cs.takeWhile Char.isDigit) ++ "percent".data ++ replacePercentF f rest2
      | rest => (c :: cs.takeWhile Char.isDigit) ++ replacePercentF f rest
    else c :: replacePercentF f cs

/-- `.replace(/(\d+)%/g, '$1percent')`.  (The source's second rewrite,
`.replace(/(\d+)x/g, '$1x')`, replaces each match by itself and is omitted
as the identity.) -/
def replacePercent (l : List Char) : List Char :=
  replacePercentF l.length l

/-- `.replace(/[^\w\s.-]/g, ' ')`: keep word characters, whitespace, period
and hyphen, blank out everything else. -/
def stripChar (c : Char) : Char :=
  if isWordChar c || jsIsSpace c || c = '.' || c = '-' then c else ' '

/-- `split(/\s+/)` followed by dropping empty tokens: the whitespace-separated
segments of a character list. -/
def splitWsAux : List Char → List Char → List (List Char)
  | [], acc => if acc.isEmpty then [] else [acc.reverse]
  | c :: rest, acc =>
    if jsIsSpace c then
      if acc.isEmpty then splitWsAux rest []
      else acc.reverse :: splitWsAux rest []
    else splitWsAux rest (c :: acc)

/-- Whitespace-separated nonempty segments of a character list. -/
def splitWs (cs : List Char) : List (List Char) :=
  splitWsAux cs []

/-- The stop word set of `BM25Service.isStopWord`. -/
def stopWords : List String :=
  ["the", "and", "for", "are", "but", "not", "you", "all", "can", "her",
   "was", "one", "our", "out", "day", "get", "has", "him", "his", "how",
   "its", "may", "new", "now", "old", "see", "than", "that", "this", "with"]

/-- `BM25Service.isStopWord`, on character lists. -/
def isStopWordL (t : List Char) : Bool :=
  (stopWords.map String.data).contains t

/-- `BM25Service.isStopWord`. -/
def isStopWord (w : String) : Bool :=
  stopWords.contains w

/-- `BM25Service.tokenize`: lower-case, rewrite `NN%` to `NNpercent`, strip
`[^\w\s.-]` to spaces, split on whitespace, drop stop words, keep a token
only if it contains a digit or is longer than 2 characters. -/
def tokenize (text : String) : List String :=
  if text = "" then []
  else
    ((splitWs ((replacePercent (text.data.map jsToLower)).map stripChar)).filter
        (fun t => !isStopWordL t)
      |>.filter (fun t => t.any Char.isDigit || decide (t.length > 2))).map
      (fun t => String.mk t)

/-! ## BM25 scoring (`bm25.service.js`, classes `BM25` and `BM25Service`) -/

namespace BM25

/-- `k1 = 1.5`, the term-frequency saturation parameter. -/
def k1 : ℚ := 3 / 2

/-- `b = 0.75`, the length-normalization parameter. -/
def lenB : ℚ := 3 / 4

/-- Average document length: `N > 0 ? totalLength / N : 0`. -/
def avgDocLength (docs : List (List String)) : ℚ :=
  if 0 < docs.length then
    ((docs.map List.length).sum : ℚ) / (docs.length : ℚ)
  else 0

/-- Document frequency of a term: the number of documents containing it at
least once (the source counts each document's term set once into
`termDocCount`). -/
def df (docs : List (List String)) (t : String) : ℕ :=
  docs.countP (fun d => d.contains t)

/-- The IDF stored in the index for a corpus term:
`ln((N - df + 0.5) / (df + 0.5) + 1)`, for an abstract logarithm. -/
def idfFormula (log : ℚ → ℚ) (docs : List (List String)) (t : String) : ℚ :=
  log (((docs.length : ℚ) - (df docs t : ℚ) + 1 / 2) / ((df docs t : ℚ) + 1 / 2) + 1)

/-- `this.idf.get(queryTerm) || 0`: the IDF map only has entries for corpus
terms, everything else reads as `0`. -/
def idfOrZero (log : ℚ → ℚ) (docs : List (List String)) (t : String) : ℚ :=
  if df docs t = 0 then 0 else idfFormula log docs t

/-- The per-document loop body of `BM25.search`: term frequencies are counted
from the document, a query term with zero frequency is skipped (`continue`),
otherwise `idf * (tf * (k1+1)) / (tf + k1 * (1 - b + b * (docLength / avgDocLength)))`
is accumulated. -/
def docScore (log : ℚ → ℚ) (docs : List (List String)) (queryTerms : List String)
    (d : List String) : ℚ :=
  queryTerms.foldl
    (fun score qt =>
      let tf := d.count qt
      if tf = 0 then score
      else
        score +
          idfOrZero log docs qt *
            ((tf : ℚ) * (k1 + 1) /
              ((tf : ℚ) + k1 * (1 - lenB + lenB * ((d.length : ℚ) / avgDocLength docs)))))
    0

/-- `BM25.search`: the score array, one entry per indexed document. -/
def search (log : ℚ → ℚ) (docs : List (List String)) (queryTerms : List String) : List ℚ :=
  docs.map (docScore log docs queryTerms)

end BM25

/-- The mutable state of the `BM25Service` singleton.  `bm25` is `some docs`
when an index instance has been constructed (the constructor captures the
token arrays it was built from); in every reachable state it equals
`some documents`. -/
structure BM25ServiceState where
  bm25 : Option (List (List String))
  documents : List (List String)
  documentIds : List ℕ

/-- Descending order on `{id, score}` pairs, as compared by
`(a, b) => b.score - a.score`. -/
def hitDesc (a b : ℕ × ℚ) : Prop := b.2 ≤ a.2

instance : DecidableRel hitDesc := fun a b => inferInstanceAs (Decidable (b.2 ≤ a.2))

instance : IsTotal (ℕ × ℚ) hitDesc := ⟨fun a b => le_total b.2 a.2⟩

instance : IsTrans (ℕ × ℚ) hitDesc := ⟨fun _ _ _ h1 h2 => le_trans h2 h1⟩

/-- `BM25Service.search`: empty result when no index is built or no documents
are indexed, or when the query tokenizes to nothing; otherwise score all
documents, pair scores with ids, sort descending (stably) and keep `topK`. -/
def serviceSearch (log : ℚ → ℚ) (st : BM25ServiceState) (query : String) (topK : ℕ) :
    List (ℕ × ℚ) :=
  match st.bm25 with
  | none => []
  | some idxDocs =>
    if st.documents.length = 0 then []
    else
      let queryTokens := tokenize query
      if queryTokens.length = 0 then []
      else
        let scores := BM25.search log idxDocs queryTokens
        let results := st.documentIds.zip scores
        (results.insertionSort hitDesc).take topK

/-! ## Chunker (`chunker.service.js`) -/

/-- The `config.chunking` record of `config/ingestion.config.js`. -/
structure ChunkConfig where
  maxTokens : ℕ
  overlapTokens : ℕ
  minChunkSize : ℕ

/-- JavaScript `String.prototype.trim` on character lists. -/
def jsTrimL (cs : List Char) : List Char :=
  ((cs.dropWhile jsIsSpace).reverse.dropWhile jsIsSpace).reverse

/-- JavaScript `String.prototype.trim`. -/
def jsTrimS (s : String) : String :=
  String.mk (jsTrimL s.data)

/-- `splitIntoSentences`: split on whitespace runs that follow `.`, `!` or
`?` (the lookbehind split `/(?<=[.!?])\s+/`), then drop blank segments.
Fueled for termination, with fuel equal to the list length. -/
def splitSentencesF : ℕ → List Char → List Char → List (List Char)
  | 0, rest, acc => [(acc.reverse ++ rest)]
  | _ + 1, [], acc => [acc.reverse]
  | f + 1, c :: rest, acc =>
    if (c = '.' || c = '!' || c = '?') &&
        (match rest with | r :: _ => jsIsSpace r | [] => false) then
      (c :: acc).reverse :: splitSentencesF f (rest.dropWhile jsIsSpace) []
    else splitSentencesF f rest (c :: acc)

/-- `ChunkerService.splitIntoSentences`. -/
def splitIntoSentences (text : String) : List String :=
  ((splitSentencesF text.data.length text.data []).filter
    (fun s => !(jsTrimL s).isEmpty)).map (fun s => String.mk s)

/-- The backward walk of `ChunkerService.getOverlapText` over the sentences
preceding the current index. -/
def getOverlapAux (overlapTokens : ℕ) : List String → ℕ → String → String
  | [], _, overlap => overlap
  | s :: rest, tokenCount, overlap =>
    if overlapTokens < tokenCount + s.length / 4 then overlap
    else getOverlapAux overlapTokens rest (tokenCount + s.length / 4) (s ++ " " ++ overlap)

/-- `ChunkerService.getOverlapText`. -/
def getOverlapText (sentences : List String) (currentIndex : ℕ) (overlapTokens : ℕ) : String :=
  getOverlapAux overlapTokens (sentences.take currentIndex).reverse 0 ""

/-- `ChunkerService.generateSectionHeading`: first sentence, truncated to 100
characters at need. -/
def generateSectionHeading (text : String) : String :=
  let firstSentence := String.mk (text.data.takeWhile (fun c => c ≠ '.' ∧ c ≠ '!' ∧ c ≠ '?'))
  if firstSentence.length ≤ 100 then jsTrimS firstSentence
  else jsTrimS (String.mk (firstSentence.data.take 100)) ++ "..."

/-- The sentence-accumulation loop of `chunkText`: greedily grow the current
chunk; when the next sentence would push the estimate past `maxTokens`, close
the chunk and seed the next with the overlap window; keep the final chunk only
if it reaches `minChunkSize`. -/
def chunkLoop (cfg : ChunkConfig) (sentences : List String) :
    ℕ → List String → String → ℕ → List String → List String
  | _, [], cur, _, acc =>
    if cfg.minChunkSize ≤ (jsTrimS cur).length then acc ++ [jsTrimS cur] else acc
  | i, s :: rest, cur, tok, acc =>
    let sTok := s.length / 4
    if cfg.maxTokens < tok + sTok ∧ 0 < cur.length then
      let ov := getOverlapText sentences i cfg.overlapTokens
      chunkLoop cfg sentences (i + 1) rest (ov ++ s ++ " ") (ov.length / 4 + sTok)
        (acc ++ [jsTrimS cur])
    else chunkLoop cfg sentences (i + 1) rest (cur ++ s ++ " ") (tok + sTok) acc

/-- A produced chunk: the passage text plus the metadata fields written by
`chunkText` (`chunk_index`, `total_chunks`, `section_heading`); the incoming
page metadata is spread through unchanged as `meta`. -/
structure TChunk (μ : Type) where
  meta : μ
  text : String
  chunkIndex : ℕ
  totalChunks : ℕ
  sectionHeading : String
deriving DecidableEq

/-- `ChunkerService.chunkText`: one chunk when the `length / 4` token estimate
fits under `maxTokens`, otherwise the sentence-accumulation loop. -/
def chunkText {μ : Type} (cfg : ChunkConfig) (text : String) (meta : μ) : List (TChunk μ) :=
  let estimatedTokens := text.length / 4
  if estimatedTokens ≤ cfg.maxTokens then
    [⟨meta, text, 0, 1, generateSectionHeading text⟩]
  else
    let sentences := splitIntoSentences text
    let chunks := chunkLoop cfg sentences 0 sentences "" 0 []
    chunks.enum.map (fun p => ⟨meta, p.2, p.1, chunks.length, generateSectionHeading p.2⟩)

/-! ## Query expansion (`retrieval.service.js`, `expandQuery`) -/

/-- Unanchored substring test: does the pattern occur in the haystack?
Models `regex.test` for a literal alternative. -/
def containsPat (hay : List Char) (pat : List Char) : Bool :=
  (List.range (hay.length + 1)).any (fun i => pat.isPrefixOf (hay.drop i))

/-- `/(p1|p2|...)/i.test(question)`: some alternative occurs in the
lower-cased question.  Each optional-plural alternative `results?` is folded
to its stem, which an unanchored search matches iff either variant does. -/
def testPattern (lowerQ : List Char) (pats : List String) : Bool :=
  pats.any (fun p => containsPat lowerQ p.data)

/-- Alternatives of the results/benefits/outcomes rule. -/
def resultsPatterns : List String :=
  ["result", "benefit", "outcome", "improvement", "impact", "achieve", "see", "experience"]

/-- Keywords appended by the results/benefits/outcomes rule. -/
def resultsKeywords : List String :=
  ["percentage", "metrics", "statistics", "improvements",
   "increase", "decrease", "reduction", "efficiency",
   "productivity", "engagement", "data-entry", "accidents",
   "insights", "actionable", "proven", "ROI"]

/-- Alternatives of the statistics/numbers rule. -/
def statsPatterns : List String :=
  ["how much", "how many", "percentage", "percent", "number", "stat", "metric"]

/-- Keywords appended by the statistics/numbers rule. -/
def statsKeywords : List String :=
  ["70percent", "62percent", "45percent", "1.8x",
   "increase", "reduction", "drop", "less", "more"]

/-- Alternatives of the efficiency/performance rule. -/
def speedPatterns : List String :=
  ["fast", "quick", "efficient", "speed", "time", "performance"]

/-- Keywords appended by the efficiency/performance rule. -/
def speedKeywords : List String :=
  ["data-entry", "productivity", "workflow", "automation",
   "time-savings", "faster", "reduction"]

/-- Alternatives of the safety/accidents rule. -/
def safetyPatterns : List String :=
  ["safety", "accident", "injury", "incident", "compliance", "hazard"]

/-- Keywords appended by the safety/accidents rule. -/
def safetyKeywords : List String :=
  ["workplace", "accidents", "injuries", "compliance",
   "risk", "ergonomics", "OSHA", "safety"]

/-- Alternatives of the AI/technology rule. -/
def aiPatterns : List String :=
  ["ai", "artificial intelligence", "technology", "automation", "digital"]

/-- Keywords appended by the AI/technology rule. -/
def aiKeywords : List String :=
  ["AI-powered", "automation", "digitize", "no-code",
   "machine-learning", "intelligent", "smart"]

/-- `[...new Set(xs)]`: deduplication keeping first occurrences. -/
def jsSetDedupAux : List String → List String → List String
  | [], _ => []
  | x :: xs, seen =>
    if seen.contains x then jsSetDedupAux xs seen
    else x :: jsSetDedupAux xs (x :: seen)

/-- `[...new Set(xs)]`. -/
def jsSetDedup (l : List String) : List String :=
  jsSetDedupAux l []

/-- The `questionWords` set: whitespace-separated tokens of the lower-cased
question (empty segments are irrelevant to the membership tests and dropped). -/
def questionWords (question : String) : List (List Char) :=
  splitWs (question.data.map jsToLower)

/-- The `expansions` array of `expandQuery`: the keyword lists of the
triggered rules, in rule order. -/
def expansionsOf (question : String) : List String :=
  let lowerQ := question.data.map jsToLower
  (if testPattern lowerQ resultsPatterns then resultsKeywords else []) ++
  (if testPattern lowerQ statsPatterns then statsKeywords else []) ++
  (if testPattern lowerQ speedPatterns then speedKeywords else []) ++
  (if testPattern lowerQ safetyPatterns then safetyKeywords else []) ++
  (if testPattern lowerQ aiPatterns then aiKeywords else [])

/-- The `uniqueExpansions` array of `expandQuery`: deduplicated keywords not
already present (case-insensitively) among the question's tokens. -/
def uniqueExpansionsOf (question : String) : List String :=
  (jsSetDedup (expansionsOf question)).filter
    (fun w => !(questionWords question).contains (w.data.map jsToLower))

/-- `RetrievalService.expandQuery`: test each rule against the question,
concatenate the triggered keyword lists, deduplicate, drop keywords already
present (case-insensitively) among the question's tokens, and append the rest
after a space. -/
def expandQuery (question : String) : String :=
  if (uniqueExpansionsOf question).isEmpty then question
  else question ++ " " ++ String.intercalate " " (uniqueExpansionsOf question)

/-! ## Reciprocal rank fusion (`retrieval.service.js`, `reciprocalRankFusion`) -/

/-- A retrieval candidate carrying full metadata, as stored in the fusion
score map and returned by `retrieve` (`heading` stands for the
`metadata.section_heading` payload). -/
structure Cand where
  id : ℕ
  text : String
  title : String
  url : String
  heading : String
  score : ℚ
deriving DecidableEq

/-- A BM25 hit: `{id, score}`. -/
structure SparseHit where
  id : ℕ
  score : ℚ
deriving DecidableEq

/-- A chunk fetched from the vector store by id
(`VectorStoreService.getChunksByIds`). -/
structure DChunk where
  id : ℕ
  text : String
  title : String
  url : String
  heading : String
deriving DecidableEq

/-- `1 / (rrfK + rank + 1)`: the RRF contribution of 0-based `rank`. -/
def rrfScore (rrfK rank : ℕ) : ℚ :=
  1 / ((rrfK : ℚ) + (rank : ℚ) + 1)

/-- `Map.prototype.set`: replace in place if the key is present, else append. -/
def mapSet (m : List Cand) (k : ℕ) (v : Cand) : List Cand :=
  if m.any (fun c => c.id == k) then m.map (fun c => if c.id = k then v else c)
  else m ++ [v]

/-- The in-place `scoreMap.get(id).score += rrfScore` update. -/
def mapAddScore (m : List Cand) (k : ℕ) (s : ℚ) : List Cand :=
  m.map (fun c => if c.id = k then { c with score := c.score + s } else c)

/-- `Map.prototype.get` on the score map. -/
def mapGet (m : List Cand) (k : ℕ) : Option Cand :=
  m.find? (fun c => c.id == k)

/-- `new Map(bm25OnlyChunks.map(c => [c.id, c])).get(id)`:
the last chunk with the given id wins. -/
def chunkLookup (chunks : List DChunk) (k : ℕ) : Option DChunk :=
  chunks.reverse.find? (fun c => c.id == k)

/-- The first `forEach` of `reciprocalRankFusion`: insert every semantic
result with its RRF contribution (`rank` is the running 0-based rank). -/
def semPassFrom (rrfK rank : ℕ) (sem : List Cand) (m : List Cand) : List Cand :=
  match sem with
  | [] => m
  | r :: rest => semPassFrom rrfK (rank + 1) rest (mapSet m r.id { r with score := rrfScore rrfK rank })

/-- The second `forEach` of `reciprocalRankFusion`: add each BM25 hit's RRF
contribution to an existing entry, or append a new entry built from the
fetched metadata; hits with no metadata are skipped. -/
def bm25PassFrom (rrfK rank : ℕ) (hits : List SparseHit) (onlyChunks : List DChunk)
    (m : List Cand) : List Cand :=
  match hits with
  | [] => m
  | r :: rest =>
    bm25PassFrom rrfK (rank + 1) rest onlyChunks
      (if m.any (fun c => c.id == r.id) then mapAddScore m r.id (rrfScore rrfK rank)
       else
         match chunkLookup onlyChunks r.id with
         | some ch =>
           m ++ [⟨r.id, ch.text, ch.title, ch.url, ch.heading, rrfScore rrfK rank⟩]
         | none => m)

/-- The fully populated score map (`Array.from(scoreMap.values())` keeps
insertion order). -/
def buildScoreMap (rrfK : ℕ) (bm25Results : List SparseHit) (semanticResults : List Cand)
    (bm25OnlyChunks : List DChunk) : List Cand :=
  bm25PassFrom rrfK 0 bm25Results bm25OnlyChunks (semPassFrom rrfK 0 semanticResults [])

/-- Descending order on candidates, as compared by
`(a, b) => b.score - a.score`. -/
def candDesc (a b : Cand) : Prop := b.score ≤ a.score

instance : DecidableRel candDesc := fun a b => inferInstanceAs (Decidable (b.score ≤ a.score))

instance : IsTotal Cand candDesc := ⟨fun a b => le_total b.score a.score⟩

instance : IsTrans Cand candDesc := ⟨fun _ _ _ h1 h2 => le_trans h2 h1⟩

/-- `.sort((a, b) => b.score - a.score)`: stable descending sort. -/
def sortByScoreDesc (l : List Cand) : List Cand :=
  l.insertionSort candDesc

/-- The min-max normalization step: the list is sorted descending, so the max
is the head's score and the min the last's; a positive range rescales
affinely, a zero range sets every score to `1.0`. -/
def normalizeScores (l : List Cand) : List Cand :=
  match l with
  | [] => []
  | top :: rest =>
    let maxScore := top.score
    let minScore := ((top :: rest).getLastD top).score
    let scoreRange := maxScore - minScore
    if 0 < scoreRange then
      (top :: rest).map (fun r => { r with score := (r.score - minScore) / scoreRange })
    else (top :: rest).map (fun r => { r with score := 1 })

/-- `RetrievalService.reciprocalRankFusion`. -/
def reciprocalRankFusion (rrfK : ℕ) (bm25Results : List SparseHit)
    (semanticResults : List Cand) (bm25OnlyChunks : List DChunk) : List Cand :=
  normalizeScores (sortByScoreDesc (buildScoreMap rrfK bm25Results semanticResults bm25OnlyChunks))

/-! ## The retrieval engine (`retrieval.service.js`, `hybridSearch` / `retrieve`) -/

/-- The external collaborators of the engine, as deterministic functions:
semantic search (embedding generation plus vector store search), the BM25
service search, and the by-id metadata fetch. -/
structure Backends where
  semanticSearch : String → ℕ → List Cand
  bm25Search : String → ℕ → List SparseHit
  getChunksByIds : List ℕ → List DChunk

/-- `this.hybridEnabled` (set to `true` in the constructor). -/
def hybridEnabled : Bool := true

/-- `this.rrfK` (set to `60` in the constructor). -/
def serviceRrfK : ℕ := 60

/-- Steps 1-4 of `hybridSearch`: semantic results, query expansion, BM25
results, and the metadata fetch for BM25-only ids. -/
def hybridStage (B : Backends) (question : String) (topK : ℕ) :
    List SparseHit × List Cand × List DChunk :=
  let semanticResults := B.semanticSearch question topK
  let expandedQuery := expandQuery question
  let bm25Results := B.bm25Search expandedQuery topK
  let bm25OnlyIds :=
    (bm25Results.map (fun r => r.id)).filter
      (fun i => !semanticResults.any (fun sr => sr.id == i))
  let bm25OnlyChunks := if 0 < bm25OnlyIds.length then B.getChunksByIds bm25OnlyIds else []
  (bm25Results, semanticResults, bm25OnlyChunks)

/-- `RetrievalService.hybridSearch`. -/
def hybridSearch (B : Backends) (question : String) (topK : ℕ) : List Cand :=
  reciprocalRankFusion serviceRrfK (hybridStage B question topK).1
    (hybridStage B question topK).2.1 (hybridStage B question topK).2.2

/-- `RetrievalService.getCacheKey`: the lower-cased, trimmed question plus the
`topK` value — the similarity threshold is not part of the key. -/
def getCacheKey (question : String) (topK : ℕ) : String :=
  jsTrimS (String.mk (question.data.map jsToLower)) ++ "_k" ++ toString topK

/-- The retrieval cache, keyed by `getCacheKey`. -/
def Cache : Type := List (String × List Cand)

/-- `NodeCache.get`. -/
def cacheGet (cache : Cache) (key : String) : Option (List Cand) :=
  ((cache : List (String × List Cand)).find? (fun p => p.1 == key)).map (fun p => p.2)

/-- `NodeCache.set` (the freshest entry wins on lookup). -/
def cacheSet (cache : Cache) (key : String) (v : List Cand) : Cache :=
  ((key, v) :: (cache : List (String × List Cand)) : List (String × List Cand))

/-- `RetrievalService.semanticSearch`: dense search then threshold filter. -/
def semanticOnlySearch (B : Backends) (question : String) (topK : ℕ)
    (similarityThreshold : ℚ) : List Cand :=
  (B.semanticSearch question topK).filter (fun r => decide (similarityThreshold ≤ r.score))

/-- `RetrievalService.retrieve`: cache check; on a miss, hybrid search with
`topK * 2` candidates, truncation to `topK`, threshold filter, cache write.
Returns the result list together with the updated cache. -/
def retrieve (B : Backends) (cache : Cache) (question : String) (topK : ℕ)
    (similarityThreshold : ℚ) : List Cand × Cache :=
  let cacheKey := getCacheKey question topK
  match cacheGet cache cacheKey with
  | some cached => (cached, cache)
  | none =>
    let results :=
      if hybridEnabled then
        ((hybridSearch B question (topK * 2)).take topK).filter
          (fun r => decide (similarityThreshold ≤ r.score))
      else semanticOnlySearch B question topK similarityThreshold
    (results, cacheSet cache cacheKey results)

/-! ## Generic list lemmas -/

/-- The default-valued last element of a nonempty list is a member. -/
theorem getLastD_mem {α : Type} : ∀ (l : List α) (d : α), l ≠ [] → l.getLastD d ∈ l
  | [], _, h => absurd rfl h
  | [a], _, _ => by simp
  | a :: b :: t, d, _ => by
    rw [List.getLastD_cons]
    exact List.mem_cons_of_mem a (getLastD_mem (b :: t) a (by simp))

/-- `getLast?` of a nonempty list agrees with `getLastD`. -/
theorem getLast?_cons_eq_getLastD {α : Type} :
    ∀ (a : α) (l : List α), (a :: l).getLast? = some ((a :: l).getLastD a)
  | _, [] => rfl
  | a, b :: t => by
    rw [List.getLast?_cons_cons, getLast?_cons_eq_getLastD b t,
      List.getLastD_cons, List.getLastD_cons, List.getLastD_cons]

/-- Strengthening the predicate of a filter cannot lengthen it. -/
theorem length_filter_mono {α : Type} (p q : α → Bool) :
    ∀ (l : List α), (∀ x ∈ l, p x = true → q x = true) →
      (l.filter p).length ≤ (l.filter q).length
  | [], _ => le_refl 0
  | x :: xs, h => by
    have ih := length_filter_mono p q xs (fun y hy => h y (List.mem_cons_of_mem x hy))
    by_cases hp : p x = true
    · have hq := h x (List.mem_cons_self x xs) hp
      simp [List.filter_cons, hp, hq]
      omega
    · by_cases hq : q x = true <;>
        simp [List.filter_cons, hp, hq] <;> omega

/-! ## Sorting and normalization lemmas -/

/-- The stable descending sort is a permutation of its input. -/
theorem sortByScoreDesc_perm (l : List Cand) : List.Perm (sortByScoreDesc l) l :=
  List.perm_insertionSort candDesc l

/-- The stable descending sort is sorted by non-increasing score. -/
theorem sortByScoreDesc_sorted (l : List Cand) : (sortByScoreDesc l).Pairwise candDesc :=
  List.sorted_insertionSort candDesc l

/-- In a descending-sorted nonempty list, the head's score dominates. -/
theorem sorted_head_top (top : Cand) (rest : List Cand)
    (h : (top :: rest).Pairwise candDesc) :
    ∀ x ∈ top :: rest, x.score ≤ top.score := by
  intro x hx
  rcases List.mem_cons.1 hx with rfl | hx'
  · exact le_refl _
  · exact (List.pairwise_cons.1 h).1 x hx'

/-- In a descending-sorted list, the last score is a lower bound. -/
theorem sorted_getLastD_le :
    ∀ (l : List Cand) (d : Cand), l.Pairwise candDesc →
      ∀ x ∈ l, (l.getLastD d).score ≤ x.score
  | [], _, _, x, hx => absurd hx (List.not_mem_nil x)
  | [a], _, _, x, hx => by
    rcases List.mem_singleton.1 hx with rfl
    simp
  | a :: b :: t, d, h, x, hx => by
    rw [List.getLastD_cons]
    rcases List.mem_cons.1 hx with rfl | hx'
    · have hlast : (b :: t).getLastD x ∈ b :: t := getLastD_mem _ _ (by simp)
      exact (List.pairwise_cons.1 h).1 _ hlast
    · exact sorted_getLastD_le (b :: t) a (List.pairwise_cons.1 h).2 x hx'

/-- Normalized scores of a descending-sorted list lie in `[0, 1]`. -/
theorem normalizeScores_mem_bounds (l : List Cand) (hs : l.Pairwise candDesc) :
    ∀ x ∈ normalizeScores l, 0 ≤ x.score ∧ x.score ≤ 1 := by
  match l with
  | [] => simp [normalizeScores]
  | top :: rest =>
    intro x hx
    simp only [normalizeScores] at hx
    split at hx
    case isTrue hr =>
      obtain ⟨y, hy, rfl⟩ := List.mem_map.1 hx
      refine ⟨div_nonneg (sub_nonneg.2 (sorted_getLastD_le _ top hs y hy)) hr.le, ?_⟩
      exact div_le_one_of_le₀
        (sub_le_sub_right (sorted_head_top top rest hs y hy) _) hr.le
    case isFalse hr =>
      obtain ⟨y, hy, rfl⟩ := List.mem_map.1 hx
      norm_num

/-- When every raw score is equal, normalization sets every score to `1`. -/
theorem normalizeScores_all_one (l : List Cand)
    (heq : ∀ x ∈ l, ∀ y ∈ l, x.score = y.score) :
    ∀ x ∈ normalizeScores l, x.score = 1 := by
  match l with
  | [] => simp [normalizeScores]
  | top :: rest =>
    have hlast : (top :: rest).getLastD top ∈ top :: rest := getLastD_mem _ _ (by simp)
    have h0 : top.score - ((top :: rest).getLastD top).score = 0 := by
      rw [heq top (List.mem_cons_self top rest) _ hlast, sub_self]
    intro x hx
    simp only [normalizeScores] at hx
    rw [h0] at hx
    rw [if_neg (lt_irrefl 0)] at hx
    obtain ⟨y, hy, rfl⟩ := List.mem_map.1 hx
    rfl

/-- Normalization preserves the descending order. -/
theorem normalizeScores_sorted (l : List Cand) (hs : l.Pairwise candDesc) :
    (normalizeScores l).Pairwise candDesc := by
  match l with
  | [] => simp [normalizeScores]
  | top :: rest =>
    simp only [normalizeScores]
    split
    case isTrue hr =>
      refine List.pairwise_map.2 (hs.imp ?_)
      intro a c hac
      exact div_le_div_of_nonneg_right (sub_le_sub_right hac _) hr.le
    case isFalse hr =>
      exact List.pairwise_map.2 (hs.imp (fun _ => le_refl 1))

/-- Normalization does not change the id column. -/
theorem normalizeScores_ids (l : List Cand) :
    (normalizeScores l).map (fun c => c.id) = l.map (fun c => c.id) := by
  match l with
  | [] => rfl
  | top :: rest =>
    simp only [normalizeScores]
    split <;> simp [List.map_map, Function.comp]

/-! ## Claim theorems: normalization (C2), degenerate sparse search (C8),
single-chunk texts (C7), additive query expansion (C6) -/

/-- C2: for every pair of input result lists (and any metadata list and RRF
constant), every score returned by `reciprocalRankFusion` lies in `[0, 1]`,
and when all raw RRF score sums in the fused map are equal, every returned
score equals exactly `1`.  (Scores are exact rationals here, so no NaN can
arise; the source guards the min-max division by `scoreRange > 0` and this
embedding takes the same branch.) -/
theorem rrf_normalization_bounds (rrfK : ℕ) (bm25Results : List SparseHit)
    (semanticResults : List Cand) (bm25OnlyChunks : List DChunk) :
    (∀ x ∈ reciprocalRankFusion rrfK bm25Results semanticResults bm25OnlyChunks,
        0 ≤ x.score ∧ x.score ≤ 1) ∧
    ((∀ x ∈ buildScoreMap rrfK bm25Results semanticResults bm25OnlyChunks,
        ∀ y ∈ buildScoreMap rrfK bm25Results semanticResults bm25OnlyChunks,
          x.score = y.score) →
      ∀ x ∈ reciprocalRankFusion rrfK bm25Results semanticResults bm25OnlyChunks,
        x.score = 1) := by
  constructor
  · exact normalizeScores_mem_bounds _ (sortByScoreDesc_sorted _)
  · intro heq
    refine normalizeScores_all_one _ ?_
    intro x hx y hy
    exact heq x ((sortByScoreDesc_perm _).mem_iff.1 hx)
      y ((sortByScoreDesc_perm _).mem_iff.1 hy)

/-- C8: when no BM25 index instance has been built, or no documents are
indexed, or the query tokenizes to zero terms, `BM25Service.search` returns
the empty list (and, being a total function, cannot throw). -/
theorem serviceSearch_degenerate_empty (log : ℚ → ℚ) (st : BM25ServiceState)
    (query : String) (topK : ℕ)
    (h : st.bm25 = none ∨ st.documents = [] ∨ tokenize query = []) :
    serviceSearch log st query topK = [] := by
  rcases h with h | h | h
  · simp [serviceSearch, h]
  · cases hb : st.bm25 <;> simp [serviceSearch, hb, h]
  · cases hb : st.bm25 <;> simp [serviceSearch, hb, h]

/-- Witness for C8 at a concrete degenerate state. -/
theorem serviceSearch_degenerate_empty_witness :
    serviceSearch (fun x => x) ⟨none, [], []⟩ "anything" 5 = [] :=
  serviceSearch_degenerate_empty (fun x => x) ⟨none, [], []⟩ "anything" 5 (Or.inl rfl)

/-- C7: a text whose `length / 4` token estimate is at most `maxTokens`
yields exactly one chunk, whose text is the input text, with `chunk_index 0`
and `total_chunks 1`. -/
theorem chunkText_single {μ : Type} (cfg : ChunkConfig) (text : String) (meta : μ)
    (h : text.length / 4 ≤ cfg.maxTokens) :
    chunkText cfg text meta = [⟨meta, text, 0, 1, generateSectionHeading text⟩] := by
  simp [chunkText, h]

/-- Witness for C7: a text of exactly the target size (`length / 4 = maxTokens`)
produces exactly one chunk. -/
theorem chunkText_single_witness :
    "abcdefgh".length / 4 = 2 ∧
    chunkText ⟨2, 1, 1⟩ "abcdefgh" () = [⟨(), "abcdefgh", 0, 1, "abcdefgh"⟩] := by
  refine ⟨by decide, ?_⟩
  rw [chunkText_single ⟨2, 1, 1⟩ "abcdefgh" () (by decide)]
  decide

/-- C6: `expandQuery` either returns the question unchanged or the question
followed by a space and a space-separated list of keywords, none of which is
already (case-insensitively) a whitespace-separated token of the question;
the original question text is preserved verbatim as a prefix in both cases. -/
theorem expandQuery_additive (question : String) :
    expandQuery question = question ∨
    ∃ ws : List String, ws ≠ [] ∧
      expandQuery question = question ++ " " ++ String.intercalate " " ws ∧
      ∀ w ∈ ws, (w.data.map jsToLower) ∉ questionWords question := by
  rcases hlist : uniqueExpansionsOf question with _ | ⟨w0, rest⟩
  · left
    simp [expandQuery, hlist]
  · right
    refine ⟨w0 :: rest, by simp, by simp [expandQuery, hlist], ?_⟩
    intro w hw
    have hmem : w ∈ uniqueExpansionsOf question := by rw [hlist]; exact hw
    unfold uniqueExpansionsOf at hmem
    have hp := List.of_mem_filter hmem
    simpa using hp

/-! ## Tokenizer character lemmas (C5) -/

/-- Character order agrees with the order of the underlying codepoints. -/
theorem char_le_iff_toNat (c d : Char) : c ≤ d ↔ c.toNat ≤ d.toNat :=
  Char.le_def.trans UInt32.le_def

/-- `jsToLower` never produces an ASCII uppercase letter. -/
theorem jsToLower_notUpper (c : Char) : ¬('A' ≤ jsToLower c ∧ jsToLower c ≤ 'Z') := by
  unfold jsToLower
  split
  case isTrue h =>
    intro hup
    have h90 : c.toNat ≤ 90 := by
      have := (char_le_iff_toNat c 'Z').mp h.2
      simpa using this
    have h65 : 65 ≤ c.toNat := by
      have := (char_le_iff_toNat 'A' c).mp h.1
      simpa using this
    have hvalid : (c.toNat + 32).isValidChar := Or.inl (by omega)
    have htn : (Char.ofNat (c.toNat + 32)).toNat = c.toNat + 32 := by
      simp [Char.ofNat, hvalid]
      rfl
    have hcon := (char_le_iff_toNat (Char.ofNat (c.toNat + 32)) 'Z').mp hup.2
    rw [htn] at hcon
    have hZ : ('Z').toNat = 90 := rfl
    omega
  case isFalse h => exact h

/-- Characters produced by `replacePercentF` preserve any predicate holding
on the input and on the letters of `"percent"`. -/
theorem replacePercentF_pres (P : Char → Prop) (hP : ∀ c ∈ "percent".data, P c) :
    ∀ (f : ℕ) (l : List Char), (∀ c ∈ l, P c) → ∀ c ∈ replacePercentF f l, P c := by
  intro f
  induction f with
  | zero => intro l hl c hc; exact hl c hc
  | succ f ih =>
    intro l hl c hc
    match l with
    | [] => simp [replacePercentF] at hc
    | c0 :: cs =>
      have hl0 : P c0 := hl c0 (List.mem_cons_self c0 cs)
      have hlcs : ∀ x ∈ cs, P x := fun x hx => hl x (List.mem_cons_of_mem c0 hx)
      simp only [replacePercentF] at hc
      split at hc
      case isTrue hdig =>
        split at hc
        case h_1 rest2 heq =>
          rcases List.mem_append.1 hc with hc1 | hcr
          · rcases List.mem_append.1 hc1 with hc2 | hcp
            · rcases List.mem_cons.1 hc2 with rfl | hctw
              · exact hl0
              · exact hlcs c ((cs.takeWhile_sublist Char.isDigit).subset hctw)
            · exact hP c hcp
          · refine ih rest2 ?_ c hcr
            intro x hx
            have hx' : x ∈ cs.dropWhile Char.isDigit := by
              rw [heq]; exact List.mem_cons_of_mem _ hx
            exact hlcs x ((cs.dropWhile_sublist Char.isDigit).subset hx')
        case h_2 rest heq =>
          rcases List.mem_append.1 hc with hc1 | hcr
          · rcases List.mem_cons.1 hc1 with rfl | hctw
            · exact hl0
            · exact hlcs c ((cs.takeWhile_sublist Char.isDigit).subset hctw)
          · refine ih _ ?_ c hcr
            intro x hx
            exact hlcs x ((cs.dropWhile_sublist Char.isDigit).subset hx)
      case isFalse hdig =>
        rcases List.mem_cons.1 hc with rfl | hcr
        · exact hl0
        · exact ih cs hlcs c hcr

/-- Tokens produced by `splitWsAux` are nonempty runs of non-whitespace
characters of the input (or of the accumulator). -/
theorem splitWsAux_spec :
    ∀ (cs acc : List Char), (∀ c ∈ acc, jsIsSpace c = false) →
      ∀ tl ∈ splitWsAux cs acc,
        tl ≠ [] ∧ ∀ c ∈ tl, (c ∈ cs ∨ c ∈ acc) ∧ jsIsSpace c = false
  | [], acc, hacc, tl, htl => by
    simp only [splitWsAux] at htl
    split at htl
    case isTrue h => simp at htl
    case isFalse h =>
      rcases List.mem_singleton.1 htl with rfl
      refine ⟨by simpa [List.isEmpty_iff] using h, ?_⟩
      intro c hc
      exact ⟨Or.inr (List.mem_reverse.1 hc), hacc c (List.mem_reverse.1 hc)⟩
  | c0 :: rest, acc, hacc, tl, htl => by
    simp only [splitWsAux] at htl
    split at htl
    case isTrue hsp =>
      have step : tl ∈ splitWsAux rest [] →
          tl ≠ [] ∧ ∀ c ∈ tl, (c ∈ c0 :: rest ∨ c ∈ acc) ∧ jsIsSpace c = false := by
        intro htl'
        have hrec := splitWsAux_spec rest [] (by simp) tl htl'
        refine ⟨hrec.1, ?_⟩
        intro c hc
        obtain ⟨hmem, hns⟩ := hrec.2 c hc
        exact ⟨Or.inl (List.mem_cons_of_mem c0 (hmem.resolve_right (by simp))), hns⟩
      split at htl
      case isTrue hae => exact step htl
      case isFalse hae =>
        rcases List.mem_cons.1 htl with rfl | htl'
        · refine ⟨by simpa [List.isEmpty_iff] using hae, ?_⟩
          intro c hc
          exact ⟨Or.inr (List.mem_reverse.1 hc), hacc c (List.mem_reverse.1 hc)⟩
        · exact step htl'
    case isFalse hsp =>
      have hacc' : ∀ c ∈ c0 :: acc, jsIsSpace c = false := by
        intro c hc
        rcases List.mem_cons.1 hc with rfl | h'
        · simpa using hsp
        · exact hacc c h'
      have hrec := splitWsAux_spec rest (c0 :: acc) hacc' tl htl
      refine ⟨hrec.1, ?_⟩
      intro c hc
      obtain ⟨hmem, hns⟩ := hrec.2 c hc
      rcases hmem with h | h
      · exact ⟨Or.inl (List.mem_cons_of_mem c0 h), hns⟩
      · rcases List.mem_cons.1 h with rfl | h'
        · exact ⟨Or.inl (List.mem_cons_self c rest), hns⟩
        · exact ⟨Or.inr h', hns⟩

/-- `isStopWord` on a packed string agrees with `isStopWordL` on its
characters. -/
theorem isStopWord_mk (tl : List Char) : isStopWord (String.mk tl) = isStopWordL tl := by
  unfold isStopWord isStopWordL
  simp only [List.contains, List.elem_eq_mem]
  refine decide_eq_decide.mpr ?_
  constructor
  · intro h
    exact List.mem_map.2 ⟨String.mk tl, h, rfl⟩
  · intro h
    obtain ⟨w, hw, heq⟩ := List.mem_map.1 h
    have : String.mk tl = w := by
      cases w
      simpa using congrArg String.mk heq.symm
    rw [this]
    exact hw

/-- C5 (amended): every token returned by `tokenize` consists only of
lowercase letters, digits, underscores, hyphens and periods (the regex class
`\w` kept by the strip step includes the underscore), contains a digit or has
length greater than 2, and is not a stop word; and the three round-trip
examples hold: `"70%"` tokenizes to `["70percent"]`, `"the and but"` to `[]`,
and `"1.8x increase"` keeps `"1.8x"` as a single token. -/
theorem tokenize_token_shape (s : String) :
    (∀ t ∈ tokenize s,
      (∀ c ∈ t.data,
        ('a' ≤ c ∧ c ≤ 'z') ∨ ('0' ≤ c ∧ c ≤ '9') ∨ c = '_' ∨ c = '-' ∨ c = '.') ∧
      (t.data.any Char.isDigit = true ∨ 2 < t.data.length) ∧
      isStopWord t = false) ∧
    tokenize "70%" = ["70percent"] ∧
    tokenize "the and but" = [] ∧
    tokenize "1.8x increase" = ["1.8x", "increase"] := by
  refine ⟨?_, by decide, by decide, by decide⟩
  intro t ht
  by_cases hs : s = ""
  · rw [hs] at ht
    simp [tokenize] at ht
  rw [tokenize, if_neg hs] at ht
  obtain ⟨tl, htl, rfl⟩ := List.mem_map.1 ht
  have h2 := List.of_mem_filter htl
  have htl1 := List.mem_of_mem_filter htl
  have h1 := List.of_mem_filter htl1
  have htl0 := List.mem_of_mem_filter htl1
  unfold splitWs at htl0
  have hnoUp : ∀ c ∈ replacePercent (s.data.map jsToLower), ¬('A' ≤ c ∧ c ≤ 'Z') := by
    intro c hc
    refine replacePercentF_pres (fun c => ¬('A' ≤ c ∧ c ≤ 'Z')) (by decide) _ _ ?_ c hc
    intro x hx
    obtain ⟨x0, _, rfl⟩ := List.mem_map.1 hx
    exact jsToLower_notUpper x0
  have hsp := splitWsAux_spec _ [] (by simp) tl htl0
  refine ⟨?_, ?_, ?_⟩
  · intro c hc
    obtain ⟨hmem, hns⟩ := hsp.2 c hc
    have hcs3 : c ∈ (replacePercent (s.data.map jsToLower)).map stripChar :=
      hmem.resolve_right (by simp)
    obtain ⟨c2, hc2, hceq⟩ := List.mem_map.1 hcs3
    by_cases hk : (isWordChar c2 || jsIsSpace c2 || c2 = '.' || c2 = '-') = true
    · have hcc : c = c2 := by rw [← hceq]; simp [stripChar, hk]
      subst hcc
      have hup := hnoUp _ hc2
      simp only [isWordChar, Bool.or_eq_true, Bool.and_eq_true,
        decide_eq_true_eq] at hk
      rcases hk with (((((⟨hlo, hhi⟩ | ⟨hlo, hhi⟩) | ⟨hlo, hhi⟩) | hu) | hspc) | hdot) | hdash
      · exact Or.inl ⟨hlo, hhi⟩
      · exact absurd ⟨hlo, hhi⟩ hup
      · exact Or.inr (Or.inl ⟨hlo, hhi⟩)
      · exact Or.inr (Or.inr (Or.inl hu))
      · rw [hns] at hspc
        exact absurd hspc (by decide)
      · exact Or.inr (Or.inr (Or.inr (Or.inr hdot)))
      · exact Or.inr (Or.inr (Or.inr (Or.inl hdash)))
    · have hcc : c = ' ' := by rw [← hceq]; simp [stripChar, hk]
      rw [hcc] at hns
      simp [jsIsSpace] at hns
  · simpa using h2
  · rw [isStopWord_mk]
    simpa using h1

/-- C5 counterexample: the claim's character class (lowercase alphanumerics,
hyphens, periods only) fails as stated — the strip regex `[^\w\s.-]` keeps
`\w`, which includes the underscore, so `tokenize "a_b"` returns the token
`"a_b"` containing `'_'`. -/
theorem tokenize_underscore_counterexample :
    tokenize "a_b" = ["a_b"] ∧
    ¬(∀ t ∈ tokenize "a_b", ∀ c ∈ t.data,
        ('a' ≤ c ∧ c ≤ 'z') ∨ ('0' ≤ c ∧ c ≤ '9') ∨ c = '-' ∨ c = '.') := by
  constructor
  · decide
  · decide

/-! ## BM25 lemmas (C4) -/

/-- The claim-side BM25 summand for query term `t` against document `d`:
`idf(t) * (tf(t,d) * (k1+1)) / (tf(t,d) + k1 * (1 - b + b * (|d| / avgDocLength)))`
with the idf formula applied unconditionally. -/
def bm25SpecTerm (log : ℚ → ℚ) (docs : List (List String)) (d : List String)
    (t : String) : ℚ :=
  BM25.idfFormula log docs t * ((d.count t : ℚ) * (BM25.k1 + 1)) /
    ((d.count t : ℚ) + BM25.k1 * (1 - BM25.lenB + BM25.lenB *
      ((d.length : ℚ) / BM25.avgDocLength docs)))

/-- The claim-side BM25 document score: the sum of the summands over the
query terms. -/
def bm25SpecScore (log : ℚ → ℚ) (docs : List (List String)) (d : List String)
    (queryTerms : List String) : ℚ :=
  (queryTerms.map (bm25SpecTerm log docs d)).sum

/-- A term occurring in a document of the corpus has positive document
frequency. -/
theorem df_pos_of_mem {docs : List (List String)} {d : List String} {t : String}
    (hd : d ∈ docs) (ht : t ∈ d) : BM25.df docs t ≠ 0 := by
  have : 0 < BM25.df docs t := by
    refine List.countP_pos_iff.2 ⟨d, hd, ?_⟩
    simp only [List.contains, List.elem_eq_mem, decide_eq_true_eq]
    exact ht
  omega

/-- The fold of `BM25.search` computes the claim's sum: each zero-frequency
term contributes `0` on both sides, and each positive-frequency term has a
corpus idf entry, so the stored idf agrees with the unconditional formula. -/
theorem docScore_eq_specScore (log : ℚ → ℚ) (docs : List (List String))
    (d : List String) (hd : d ∈ docs) (queryTerms : List String) :
    BM25.docScore log docs queryTerms d = bm25SpecScore log docs d queryTerms := by
  have key : ∀ (qts : List String) (a : ℚ),
      qts.foldl
        (fun score qt =>
          let tf := d.count qt
          if tf = 0 then score
          else
            score +
              BM25.idfOrZero log docs qt *
                ((tf : ℚ) * (BM25.k1 + 1) /
                  ((tf : ℚ) + BM25.k1 * (1 - BM25.lenB + BM25.lenB *
                    ((d.length : ℚ) / BM25.avgDocLength docs)))))
        a = a + (qts.map (bm25SpecTerm log docs d)).sum := by
    intro qts
    induction qts with
    | nil => intro a; simp
    | cons qt rest ih =>
      intro a
      rw [List.foldl_cons, ih, List.map_cons, List.sum_cons]
      by_cases htf : d.count qt = 0
      · have hzero : bm25SpecTerm log docs d qt = 0 := by
          unfold bm25SpecTerm
          rw [htf]
          push_cast
          rw [zero_mul, mul_zero, zero_div]
        simp [htf, hzero]
      · simp only [if_neg htf]
        have hdf : BM25.df docs qt ≠ 0 :=
          df_pos_of_mem hd (List.count_pos_iff.1 (Nat.pos_of_ne_zero htf))
        have hidf : BM25.idfOrZero log docs qt = BM25.idfFormula log docs qt := by
          unfold BM25.idfOrZero
          rw [if_neg hdf]
        rw [hidf]
        unfold bm25SpecTerm
        rw [mul_div_assoc]
        ring
  unfold BM25.docScore bm25SpecScore
  rw [key ((queryTerms : List String)) 0, zero_add]

/-- C4: under a built index (`bm25` holding the service's documents, id list
aligned with the document list) and a query with at least one token,
`BM25Service.search` returns a descending-sorted prefix of a permutation of
the `(id, score)` pairs, where each score is exactly the BM25 sum
`Σ_t idf(t) * (tf(t,d) * (k1+1)) / (tf(t,d) + k1 * (1 - b + b * (|d|/avgdl)))`
with `k1 = 1.5`, `b = 0.75`, `idf(t) = ln((N - df(t) + 0.5)/(df(t) + 0.5) + 1)`;
every omitted pair scores no higher than every returned pair, at most `topK`
pairs are returned, and a term with zero document frequency contributes `0`
to every document. -/
theorem bm25_search_formula_topK (log : ℚ → ℚ) (st : BM25ServiceState)
    (query : String) (topK : ℕ)
    (hbuilt : st.bm25 = some st.documents)
    (hlen : st.documentIds.length = st.documents.length)
    (hq : tokenize query ≠ []) :
    (∃ rest : List (ℕ × ℚ),
      List.Perm (serviceSearch log st query topK ++ rest)
        (st.documentIds.zip
          (st.documents.map (fun d => bm25SpecScore log st.documents d (tokenize query)))) ∧
      (serviceSearch log st query topK).Pairwise hitDesc ∧
      (∀ p ∈ serviceSearch log st query topK, ∀ r ∈ rest, r.2 ≤ p.2) ∧
      (serviceSearch log st query topK).length = min topK st.documents.length) ∧
    (∀ t : String, BM25.df st.documents t = 0 →
      ∀ d ∈ st.documents, bm25SpecTerm log st.documents d t = 0) := by
  constructor
  · by_cases hD : st.documents = []
    · refine ⟨[], ?_, ?_, ?_, ?_⟩ <;>
        simp [serviceSearch, hbuilt, hD]
    · have hsearch : BM25.search log st.documents (tokenize query) =
          st.documents.map (fun d => bm25SpecScore log st.documents d (tokenize query)) := by
        unfold BM25.search
        exact List.map_congr_left
          (fun d hd => docScore_eq_specScore log st.documents d hd (tokenize query))
      have hout : serviceSearch log st query topK =
          ((st.documentIds.zip
            (st.documents.map (fun d => bm25SpecScore log st.documents d (tokenize query)))).insertionSort
              hitDesc).take topK := by
        simp only [serviceSearch, hbuilt]
        rw [if_neg (by simpa [List.length_eq_zero] using hD),
          if_neg (by simpa [List.length_eq_zero] using hq), hsearch]
      set L := (st.documentIds.zip
        (st.documents.map (fun d => bm25SpecScore log st.documents d (tokenize query)))).insertionSort
          hitDesc with hL
      have hLsorted : L.Pairwise hitDesc := List.sorted_insertionSort hitDesc _
      refine ⟨L.drop topK, ?_, ?_, ?_, ?_⟩
      · rw [hout, List.take_append_drop]
        exact List.perm_insertionSort hitDesc _
      · rw [hout]
        exact List.Pairwise.sublist (List.take_sublist _ _) hLsorted
      · rw [hout]
        have hsplit : L.Pairwise hitDesc := hLsorted
        rw [← List.take_append_drop topK L] at hsplit
        exact fun p hp r hr => (List.pairwise_append.1 hsplit).2.2 p hp r hr
      · rw [hout, List.length_take, (List.perm_insertionSort hitDesc _).length_eq,
          List.length_zip, List.length_map, hlen, min_self]
  · intro t hdf d hd
    have htf : d.count t = 0 := by
      rcases Nat.eq_zero_or_pos (d.count t) with h | h
      · exact h
      · exact absurd hdf (df_pos_of_mem hd (List.count_pos_iff.1 h))
    unfold bm25SpecTerm
    rw [htf]
    push_cast
    rw [zero_mul, mul_zero, zero_div]

/-- A concrete two-document service state for exercising the BM25 theorems. -/
def bm25DemoState : BM25ServiceState :=
  ⟨some [["ergonomics", "posture"], ["workflow"]],
    [["ergonomics", "posture"], ["workflow"]], [10, 20]⟩

/-- Witness for C4 at a concrete two-document index and two-term query. -/
theorem bm25_search_formula_topK_witness :
    (∃ rest : List (ℕ × ℚ),
      List.Perm (serviceSearch (fun x => x) bm25DemoState "ergonomics speed" 5 ++ rest)
        (bm25DemoState.documentIds.zip
          (bm25DemoState.documents.map (fun d =>
            bm25SpecScore (fun x => x) bm25DemoState.documents d
              (tokenize "ergonomics speed")))) ∧
      (serviceSearch (fun x => x) bm25DemoState "ergonomics speed" 5).Pairwise hitDesc ∧
      (∀ p ∈ serviceSearch (fun x => x) bm25DemoState "ergonomics speed" 5,
        ∀ r ∈ rest, r.2 ≤ p.2) ∧
      (serviceSearch (fun x => x) bm25DemoState "ergonomics speed" 5).length =
        min 5 bm25DemoState.documents.length) ∧
    (∀ t : String, BM25.df bm25DemoState.documents t = 0 →
      ∀ d ∈ bm25DemoState.documents,
        bm25SpecTerm (fun x => x) bm25DemoState.documents d t = 0) :=
  bm25_search_formula_topK (fun x => x) bm25DemoState "ergonomics speed" 5 rfl
    (by decide) (by decide)

/-! ## Score map lemmas (C3, C9) -/

/-- The `Map.has` test of the fusion passes, restated on the id column. -/
theorem any_id_eq (m : List Cand) (k : ℕ) :
    (m.any (fun c => c.id == k) = true) ↔ k ∈ m.map (fun c => c.id) := by
  simp [List.any_eq_true, List.mem_map]

/-- `mapGet` misses exactly the ids outside the map. -/
theorem mapGet_eq_none (m : List Cand) (k : ℕ) :
    mapGet m k = none ↔ k ∉ m.map (fun c => c.id) := by
  unfold mapGet
  rw [List.find?_eq_none]
  simp [List.mem_map]

/-- `mapAddScore` leaves the id column unchanged. -/
theorem mapAddScore_ids (m : List Cand) (k : ℕ) (s : ℚ) :
    (mapAddScore m k s).map (fun c => c.id) = m.map (fun c => c.id) := by
  unfold mapAddScore
  rw [List.map_map]
  refine List.map_congr_left ?_
  intro c _
  by_cases h : c.id = k <;> simp [h]

/-- `mapAddScore` is invisible to lookups of other ids. -/
theorem mapGet_mapAddScore_ne :
    ∀ (m : List Cand) (i : ℕ) (s : ℚ) (k : ℕ), i ≠ k →
      mapGet (mapAddScore m i s) k = mapGet m k
  | [], _, _, _, _ => rfl
  | c :: m, i, s, k, hik => by
    by_cases hci : c.id = i
    · have hck : ¬((c.id == k) = true) := by
        simp only [beq_iff_eq, hci]
        exact hik
      unfold mapAddScore mapGet
      simp only [List.map_cons, if_pos hci]
      rw [List.find?_cons_of_neg, List.find?_cons_of_neg]
      · exact mapGet_mapAddScore_ne m i s k hik
      · exact hck
      · simpa using hck
    · unfold mapAddScore mapGet
      simp only [List.map_cons, if_neg hci]
      by_cases hck : (c.id == k) = true
      · rw [List.find?_cons_of_pos, List.find?_cons_of_pos]
        · exact hck
        · exact hck
      · rw [List.find?_cons_of_neg, List.find?_cons_of_neg]
        · exact mapGet_mapAddScore_ne m i s k hik
        · exact hck
        · exact hck

/-- `mapAddScore` adds to the looked-up entry's score. -/
theorem mapGet_mapAddScore_self :
    ∀ (m : List Cand) (k : ℕ) (s : ℚ),
      mapGet (mapAddScore m k s) k =
        (mapGet m k).map (fun c => { c with score := c.score + s })
  | [], _, _ => rfl
  | c :: m, k, s => by
    by_cases hck : c.id = k
    · unfold mapAddScore mapGet
      simp only [List.map_cons, if_pos hck]
      rw [List.find?_cons_of_pos, List.find?_cons_of_pos]
      · rfl
      · simpa using hck
      · simpa using hck
    · unfold mapAddScore mapGet
      simp only [List.map_cons, if_neg hck]
      rw [List.find?_cons_of_neg, List.find?_cons_of_neg]
      · exact mapGet_mapAddScore_self m k s
      · simpa using hck
      · simpa using hck

/-- Appending an entry with a different id is invisible to a lookup. -/
theorem mapGet_append_ne (m : List Cand) (v : Cand) (k : ℕ) (hvk : v.id ≠ k) :
    mapGet (m ++ [v]) k = mapGet m k := by
  unfold mapGet
  rw [List.find?_append]
  cases h : m.find? (fun c => c.id == k)
  · simp [Option.or, List.find?_cons, hvk]
  · simp [Option.or]

/-- Appending a fresh entry makes it visible to its own lookup. -/
theorem mapGet_append_self (m : List Cand) (v : Cand) (hfresh : v.id ∉ m.map (fun c => c.id)) :
    mapGet (m ++ [v]) v.id = some v := by
  unfold mapGet
  rw [List.find?_append]
  have hnone : m.find? (fun c => c.id == v.id) = none := mapGet_eq_none m v.id |>.2 hfresh
  rw [hnone]
  simp [Option.or, List.find?_cons]

/-- The in-order contents written by the semantic pass over fresh ids. -/
def semMapped (rrfK n : ℕ) : List Cand → List Cand
  | [] => []
  | r :: rest => { r with score := rrfScore rrfK n } :: semMapped rrfK (n + 1) rest

/-- `semMapped` keeps the id column of its input. -/
theorem semMapped_ids (rrfK : ℕ) :
    ∀ (sem : List Cand) (n : ℕ),
      (semMapped rrfK n sem).map (fun c => c.id) = sem.map (fun c => c.id)
  | [], _ => rfl
  | r :: rest, n => by
    unfold semMapped
    simp only [List.map_cons]
    rw [semMapped_ids rrfK rest (n + 1)]

/-- Over fresh, duplicate-free ids, the semantic pass appends its input with
the rank-`n` RRF scores. -/
theorem semPassFrom_eq :
    ∀ (sem : List Cand) (rrfK n : ℕ) (m : List Cand),
      (sem.map (fun c => c.id)).Nodup →
      (∀ i ∈ sem.map (fun c => c.id), i ∉ m.map (fun c => c.id)) →
      semPassFrom rrfK n sem m = m ++ semMapped rrfK n sem
  | [], _, _, m, _, _ => by simp [semPassFrom, semMapped]
  | r :: rest, K, n, m, hnd, hdisj => by
    rw [semPassFrom]
    have hfresh : ¬(m.any (fun c => c.id == r.id) = true) := by
      rw [any_id_eq]
      exact hdisj r.id (by simp)
    rw [mapSet, if_neg hfresh]
    have hnd2 : (∀ x ∈ rest, ¬x.id = r.id) ∧ (rest.map (fun c => c.id)).Nodup := by
      simpa using hnd
    have hhead : r.id ∉ rest.map (fun c => c.id) := by
      intro hmem
      obtain ⟨x, hx, hxid⟩ := List.mem_map.1 hmem
      exact hnd2.1 x hx hxid
    have hdisj' : ∀ i ∈ rest.map (fun c => c.id),
        i ∉ (m ++ [({ r with score := rrfScore K n } : Cand)]).map (fun c => c.id) := by
      intro i hi
      simp only [List.map_append, List.mem_append]
      rintro (h | h)
      · have hi' : i ∈ (r :: rest).map (fun c => c.id) := by
          rw [List.map_cons]
          exact List.mem_cons_of_mem _ hi
        exact hdisj i hi' h
      · simp at h
        rw [h] at hi
        exact hhead hi
    rw [semPassFrom_eq rest K (n + 1) _ hnd2.2 hdisj']
    rw [List.append_assoc]
    rfl

/-- Lookup inside `semMapped`: position `j` carries the rank-`(n+j)` RRF
score. -/
theorem semMapped_get (rrfK : ℕ) :
    ∀ (sem : List Cand) (n j : ℕ) (c : Cand),
      sem[j]? = some c →
      (sem.map (fun cc => cc.id)).Nodup →
      mapGet (semMapped rrfK n sem) c.id = some { c with score := rrfScore rrfK (n + j) }
  | [], _, j, _, hj, _ => by simp at hj
  | r :: rest, n, 0, c, hj, hnd => by
    have hc : r = c := by simpa using hj
    subst hc
    unfold semMapped mapGet
    rw [List.find?_cons_of_pos]
    · simp
    · simp
  | r :: rest, n, j + 1, c, hj, hnd => by
    rw [List.getElem?_cons_succ] at hj
    have hcmem : c ∈ rest := List.getElem?_mem hj
    have hcid : c.id ∈ rest.map (fun cc => cc.id) := List.mem_map.2 ⟨c, hcmem, rfl⟩
    have hnd2 : (∀ x ∈ rest, ¬x.id = r.id) ∧ (rest.map (fun cc => cc.id)).Nodup := by
      simpa using hnd
    have hhead : r.id ∉ rest.map (fun cc => cc.id) := by
      intro hmem
      obtain ⟨x, hx, hxid⟩ := List.mem_map.1 hmem
      exact hnd2.1 x hx hxid
    have hne : ¬(r.id = c.id) := by
      intro h
      rw [h] at hhead
      exact hhead hcid
    unfold semMapped mapGet
    rw [List.find?_cons_of_neg]
    · have harg : n + 1 + j = n + (j + 1) := by omega
      rw [← harg]
      have := semMapped_get rrfK rest (n + 1) j c hj hnd2.2
      unfold mapGet at this
      exact this
    · simpa using hne

/-- Id column of the map after the BM25 pass: the starting ids followed, in
hit order, by the ids of fresh hits whose metadata fetch succeeded. -/
theorem bm25PassFrom_ids (rrfK : ℕ) (chunks : List DChunk) :
    ∀ (hits : List SparseHit) (n : ℕ) (m : List Cand),
      (hits.map (fun r => r.id)).Nodup →
      (bm25PassFrom rrfK n hits chunks m).map (fun c => c.id) =
        m.map (fun c => c.id) ++
          (hits.filter (fun r =>
            !decide (r.id ∈ m.map (fun c => c.id)) &&
              (chunkLookup chunks r.id).isSome)).map (fun r => r.id)
  | [], _, m, _ => by simp [bm25PassFrom]
  | r :: rest, n, m, hnd => by
    have hnd2 : (∀ x ∈ rest, ¬x.id = r.id) ∧ (rest.map (fun rr => rr.id)).Nodup := by
      simpa using hnd
    by_cases hmem : m.any (fun c => c.id == r.id) = true
    · rw [bm25PassFrom, if_pos hmem]
      rw [bm25PassFrom_ids rrfK chunks rest (n + 1) _ hnd2.2]
      rw [mapAddScore_ids]
      congr 1
      rw [List.filter_cons_of_neg]
      simp only [Bool.and_eq_true, Bool.not_eq_true', decide_eq_false_iff_not]
      intro hcon
      exact hcon.1 ((any_id_eq m r.id).1 hmem)
    · have hnotm : r.id ∉ m.map (fun c => c.id) := fun h => hmem ((any_id_eq m r.id).2 h)
      cases hch : chunkLookup chunks r.id with
      | none =>
        rw [bm25PassFrom]
        have hstep : (if m.any (fun c => c.id == r.id) then
              mapAddScore m r.id (rrfScore rrfK n)
            else match chunkLookup chunks r.id with
              | some ch =>
                m ++ [⟨r.id, ch.text, ch.title, ch.url, ch.heading, rrfScore rrfK n⟩]
              | none => m) = m := by
          rw [if_neg hmem, hch]
        rw [hstep]
        rw [bm25PassFrom_ids rrfK chunks rest (n + 1) _ hnd2.2]
        congr 1
        rw [List.filter_cons_of_neg]
        simp [hch]
      | some ch =>
        rw [bm25PassFrom]
        have hstep : (if m.any (fun c => c.id == r.id) then
              mapAddScore m r.id (rrfScore rrfK n)
            else match chunkLookup chunks r.id with
              | some ch =>
                m ++ [⟨r.id, ch.text, ch.title, ch.url, ch.heading, rrfScore rrfK n⟩]
              | none => m) =
            m ++ [⟨r.id, ch.text, ch.title, ch.url, ch.heading, rrfScore rrfK n⟩] := by
          rw [if_neg hmem, hch]
        rw [hstep]
        rw [bm25PassFrom_ids rrfK chunks rest (n + 1) _ hnd2.2]
        have hids : (m ++ [(⟨r.id, ch.text, ch.title, ch.url, ch.heading,
            rrfScore rrfK n⟩ : Cand)]).map (fun c => c.id) =
            m.map (fun c => c.id) ++ [r.id] := by
          simp
        rw [hids]
        have hfc : rest.filter (fun x =>
            !decide (x.id ∈ m.map (fun c => c.id) ++ [r.id]) &&
              (chunkLookup chunks x.id).isSome) =
            rest.filter (fun x =>
            !decide (x.id ∈ m.map (fun c => c.id)) &&
              (chunkLookup chunks x.id).isSome) := by
          refine List.filter_congr ?_
          intro x hx
          have hxr : ¬x.id = r.id := hnd2.1 x hx
          simp [List.mem_append, hxr]
        rw [hfc]
        rw [List.filter_cons_of_pos]
        · simp [List.append_assoc]
        · simp [hch, hnotm]

/-- A lookup of an id hit by no BM25 result is unchanged by the BM25 pass. -/
theorem bm25PassFrom_get_not_mem (rrfK : ℕ) (chunks : List DChunk) :
    ∀ (hits : List SparseHit) (n : ℕ) (m : List Cand) (k : ℕ),
      k ∉ hits.map (fun r => r.id) →
      mapGet (bm25PassFrom rrfK n hits chunks m) k = mapGet m k
  | [], _, _, _, _ => rfl
  | r :: rest, n, m, k, hk => by
    have hk2 : ¬k = r.id ∧ k ∉ rest.map (fun rr => rr.id) := by
      simpa using hk
    by_cases hmem : m.any (fun c => c.id == r.id) = true
    · rw [bm25PassFrom, if_pos hmem]
      rw [bm25PassFrom_get_not_mem rrfK chunks rest (n + 1) _ k hk2.2]
      exact mapGet_mapAddScore_ne m r.id _ k (fun h => hk2.1 h.symm)
    · cases hch : chunkLookup chunks r.id with
      | none =>
        rw [bm25PassFrom]
        have hstep : (if m.any (fun c => c.id == r.id) then
              mapAddScore m r.id (rrfScore rrfK n)
            else match chunkLookup chunks r.id with
              | some ch =>
                m ++ [⟨r.id, ch.text, ch.title, ch.url, ch.heading, rrfScore rrfK n⟩]
              | none => m) = m := by
          rw [if_neg hmem, hch]
        rw [hstep]
        exact bm25PassFrom_get_not_mem rrfK chunks rest (n + 1) _ k hk2.2
      | some ch =>
        rw [bm25PassFrom]
        have hstep : (if m.any (fun c => c.id == r.id) then
              mapAddScore m r.id (rrfScore rrfK n)
            else match chunkLookup chunks r.id with
              | some ch =>
                m ++ [⟨r.id, ch.text, ch.title, ch.url, ch.heading, rrfScore rrfK n⟩]
              | none => m) =
            m ++ [⟨r.id, ch.text, ch.title, ch.url, ch.heading, rrfScore rrfK n⟩] := by
          rw [if_neg hmem, hch]
        rw [hstep]
        rw [bm25PassFrom_get_not_mem rrfK chunks rest (n + 1) _ k hk2.2]
        exact mapGet_append_ne m _ k (fun h => hk2.1 h.symm)

/-- Looking up the id of the rank-`j` hit when it already sits in the map:
the BM25 pass adds its rank-`(n+j)` RRF contribution to the stored score. -/
theorem bm25PassFrom_get_mem (rrfK : ℕ) (chunks : List DChunk) :
    ∀ (hits : List SparseHit) (n j : ℕ) (m : List Cand) (r : SparseHit),
      (hits.map (fun x => x.id)).Nodup →
      hits[j]? = some r →
      r.id ∈ m.map (fun c => c.id) →
      mapGet (bm25PassFrom rrfK n hits chunks m) r.id =
        (mapGet m r.id).map (fun c => { c with score := c.score + rrfScore rrfK (n + j) })
  | [], _, j, _, _, _, hj, _ => by simp at hj
  | r0 :: rest, n, 0, m, r, hnd, hj, hm => by
    have hr : r0 = r := by simpa using hj
    subst hr
    have hnd2 : (∀ x ∈ rest, ¬x.id = r0.id) ∧ (rest.map (fun x => x.id)).Nodup := by
      simpa using hnd
    have hrnot : r0.id ∉ rest.map (fun x => x.id) := by
      intro hmem
      obtain ⟨x, hx, hxid⟩ := List.mem_map.1 hmem
      exact hnd2.1 x hx hxid
    rw [bm25PassFrom, if_pos ((any_id_eq m r0.id).2 hm)]
    rw [bm25PassFrom_get_not_mem rrfK chunks rest (n + 1) _ r0.id hrnot]
    rw [mapGet_mapAddScore_self, Nat.add_zero]
  | r0 :: rest, n, j + 1, m, r, hnd, hj, hm => by
    rw [List.getElem?_cons_succ] at hj
    have hnd2 : (∀ x ∈ rest, ¬x.id = r0.id) ∧ (rest.map (fun x => x.id)).Nodup := by
      simpa using hnd
    have hrmem : r ∈ rest := List.getElem?_mem hj
    have hne : r0.id ≠ r.id := fun h => hnd2.1 r hrmem h.symm
    have harg : n + 1 + j = n + (j + 1) := by omega
    by_cases hmem : m.any (fun c => c.id == r0.id) = true
    · rw [bm25PassFrom, if_pos hmem]
      have hm' : r.id ∈ (mapAddScore m r0.id (rrfScore rrfK n)).map (fun c => c.id) := by
        rw [mapAddScore_ids]
        exact hm
      rw [bm25PassFrom_get_mem rrfK chunks rest (n + 1) j _ r hnd2.2 hj hm']
      rw [mapGet_mapAddScore_ne m r0.id _ r.id hne, harg]
    · cases hch : chunkLookup chunks r0.id with
      | none =>
        rw [bm25PassFrom]
        have hstep : (if m.any (fun c => c.id == r0.id) then
              mapAddScore m r0.id (rrfScore rrfK n)
            else match chunkLookup chunks r0.id with
              | some ch =>
                m ++ [⟨r0.id, ch.text, ch.title, ch.url, ch.heading, rrfScore rrfK n⟩]
              | none => m) = m := by
          rw [if_neg hmem, hch]
        rw [hstep]
        rw [bm25PassFrom_get_mem rrfK chunks rest (n + 1) j m r hnd2.2 hj hm, harg]
      | some ch =>
        rw [bm25PassFrom]
        have hstep : (if m.any (fun c => c.id == r0.id) then
              mapAddScore m r0.id (rrfScore rrfK n)
            else match chunkLookup chunks r0.id with
              | some ch =>
                m ++ [⟨r0.id, ch.text, ch.title, ch.url, ch.heading, rrfScore rrfK n⟩]
              | none => m) =
            m ++ [⟨r0.id, ch.text, ch.title, ch.url, ch.heading, rrfScore rrfK n⟩] := by
          rw [if_neg hmem, hch]
        rw [hstep]
        have hm' : r.id ∈ (m ++ [(⟨r0.id, ch.text, ch.title, ch.url, ch.heading,
            rrfScore rrfK n⟩ : Cand)]).map (fun c => c.id) := by
          simp only [List.map_append, List.mem_append]
          exact Or.inl hm
        rw [bm25PassFrom_get_mem rrfK chunks rest (n + 1) j _ r hnd2.2 hj hm']
        rw [mapGet_append_ne m _ r.id hne, harg]

/-- Looking up the id of the rank-`j` hit when it is new and its metadata
fetch succeeded: the BM25 pass stores the fetched chunk with the rank-`(n+j)`
RRF score. -/
theorem bm25PassFrom_get_new (rrfK : ℕ) (chunks : List DChunk) :
    ∀ (hits : List SparseHit) (n j : ℕ) (m : List Cand) (r : SparseHit) (ch : DChunk),
      (hits.map (fun x => x.id)).Nodup →
      hits[j]? = some r →
      r.id ∉ m.map (fun c => c.id) →
      chunkLookup chunks r.id = some ch →
      mapGet (bm25PassFrom rrfK n hits chunks m) r.id =
        some ⟨r.id, ch.text, ch.title, ch.url, ch.heading, rrfScore rrfK (n + j)⟩
  | [], _, j, _, _, _, _, hj, _, _ => by simp at hj
  | r0 :: rest, n, 0, m, r, ch, hnd, hj, hm, hch => by
    have hr : r0 = r := by simpa using hj
    subst hr
    have hnd2 : (∀ x ∈ rest, ¬x.id = r0.id) ∧ (rest.map (fun x => x.id)).Nodup := by
      simpa using hnd
    have hrnot : r0.id ∉ rest.map (fun x => x.id) := by
      intro hmem
      obtain ⟨x, hx, hxid⟩ := List.mem_map.1 hmem
      exact hnd2.1 x hx hxid
    have hmem : ¬(m.any (fun c => c.id == r0.id) = true) :=
      fun h => hm ((any_id_eq m r0.id).1 h)
    rw [bm25PassFrom]
    have hstep : (if m.any (fun c => c.id == r0.id) then
          mapAddScore m r0.id (rrfScore rrfK n)
        else match chunkLookup chunks r0.id with
          | some ch =>
            m ++ [⟨r0.id, ch.text, ch.title, ch.url, ch.heading, rrfScore rrfK n⟩]
          | none => m) =
        m ++ [⟨r0.id, ch.text, ch.title, ch.url, ch.heading, rrfScore rrfK n⟩] := by
      rw [if_neg hmem, hch]
    rw [hstep]
    rw [bm25PassFrom_get_not_mem rrfK chunks rest (n + 1) _ r0.id hrnot]
    rw [Nat.add_zero]
    exact mapGet_append_self m _ hm
  | r0 :: rest, n, j + 1, m, r, ch, hnd, hj, hm, hch => by
    rw [List.getElem?_cons_succ] at hj
    have hnd2 : (∀ x ∈ rest, ¬x.id = r0.id) ∧ (rest.map (fun x => x.id)).Nodup := by
      simpa using hnd
    have hrmem : r ∈ rest := List.getElem?_mem hj
    have hne : r0.id ≠ r.id := fun h => hnd2.1 r hrmem h.symm
    have harg : n + 1 + j = n + (j + 1) := by omega
    by_cases hmem : m.any (fun c => c.id == r0.id) = true
    · rw [bm25PassFrom, if_pos hmem]
      have hm' : r.id ∉ (mapAddScore m r0.id (rrfScore rrfK n)).map (fun c => c.id) := by
        rw [mapAddScore_ids]
        exact hm
      rw [bm25PassFrom_get_new rrfK chunks rest (n + 1) j _ r ch hnd2.2 hj hm' hch, harg]
    · cases hch0 : chunkLookup chunks r0.id with
      | none =>
        rw [bm25PassFrom]
        have hstep : (if m.any (fun c => c.id == r0.id) then
              mapAddScore m r0.id (rrfScore rrfK n)
            else match chunkLookup chunks r0.id with
              | some c2 =>
                m ++ [⟨r0.id, c2.text, c2.title, c2.url, c2.heading, rrfScore rrfK n⟩]
              | none => m) = m := by
          rw [if_neg hmem, hch0]
        rw [hstep]
        rw [bm25PassFrom_get_new rrfK chunks rest (n + 1) j m r ch hnd2.2 hj hm hch, harg]
      | some ch0 =>
        rw [bm25PassFrom]
        have hstep : (if m.any (fun c => c.id == r0.id) then
              mapAddScore m r0.id (rrfScore rrfK n)
            else match chunkLookup chunks r0.id with
              | some c2 =>
                m ++ [⟨r0.id, c2.text, c2.title, c2.url, c2.heading, rrfScore rrfK n⟩]
              | none => m) =
            m ++ [⟨r0.id, ch0.text, ch0.title, ch0.url, ch0.heading, rrfScore rrfK n⟩] := by
          rw [if_neg hmem, hch0]
        rw [hstep]
        have hm' : r.id ∉ (m ++ [(⟨r0.id, ch0.text, ch0.title, ch0.url, ch0.heading,
            rrfScore rrfK n⟩ : Cand)]).map (fun c => c.id) := by
          simp only [List.map_append, List.mem_append]
          rintro (h | h)
          · exact hm h
          · simp at h
            exact hne h.symm
        rw [bm25PassFrom_get_new rrfK chunks rest (n + 1) j _ r ch hnd2.2 hj hm' hch, harg]

/-- C3: with metadata available for every sparse-only id (and duplicate-free
result ids, as search results are keyed by id), every chunk id present in
either input list appears exactly once in the fused set, a semantic-only
candidate's raw fused score is its semantic RRF contribution `1/(rrfK+rank+1)`
alone, and a BM25-only candidate's raw fused score is its BM25 RRF
contribution alone — the missing list contributes `0`. -/
theorem rrf_fusion_completeness (rrfK : ℕ) (bm25Results : List SparseHit)
    (semanticResults : List Cand) (bm25OnlyChunks : List DChunk)
    (hndS : (semanticResults.map (fun c => c.id)).Nodup)
    (hndB : (bm25Results.map (fun r => r.id)).Nodup)
    (hcov : ∀ r ∈ bm25Results, r.id ∉ semanticResults.map (fun c => c.id) →
      (chunkLookup bm25OnlyChunks r.id).isSome = true) :
    (∀ i : ℕ,
      ((reciprocalRankFusion rrfK bm25Results semanticResults bm25OnlyChunks).map
        (fun c => c.id)).count i =
        if i ∈ semanticResults.map (fun c => c.id) ∨ i ∈ bm25Results.map (fun r => r.id)
        then 1 else 0) ∧
    (∀ (j : ℕ) (c : Cand), semanticResults[j]? = some c →
      c.id ∉ bm25Results.map (fun r => r.id) →
      mapGet (buildScoreMap rrfK bm25Results semanticResults bm25OnlyChunks) c.id =
        some { c with score := rrfScore rrfK j }) ∧
    (∀ (j : ℕ) (r : SparseHit), bm25Results[j]? = some r →
      r.id ∉ semanticResults.map (fun c => c.id) →
      ∃ e : Cand,
        mapGet (buildScoreMap rrfK bm25Results semanticResults bm25OnlyChunks) r.id =
          some e ∧ e.score = rrfScore rrfK j) := by
  have hsem_eq : semPassFrom rrfK 0 semanticResults [] = semMapped rrfK 0 semanticResults := by
    have := semPassFrom_eq semanticResults rrfK 0 [] hndS (by simp)
    simpa using this
  have hids_sem : (semPassFrom rrfK 0 semanticResults []).map (fun c => c.id) =
      semanticResults.map (fun c => c.id) := by
    rw [hsem_eq, semMapped_ids]
  have hids_raw :
      (buildScoreMap rrfK bm25Results semanticResults bm25OnlyChunks).map (fun c => c.id) =
        semanticResults.map (fun c => c.id) ++
          (bm25Results.filter (fun r =>
            !decide (r.id ∈ semanticResults.map (fun c => c.id)) &&
              (chunkLookup bm25OnlyChunks r.id).isSome)).map (fun r => r.id) := by
    unfold buildScoreMap
    rw [bm25PassFrom_ids rrfK bm25OnlyChunks bm25Results 0 _ hndB]
    simp only [hids_sem]
  have hfilter : bm25Results.filter (fun r =>
        !decide (r.id ∈ semanticResults.map (fun c => c.id)) &&
          (chunkLookup bm25OnlyChunks r.id).isSome) =
      bm25Results.filter (fun r =>
        !decide (r.id ∈ semanticResults.map (fun c => c.id))) := by
    refine List.filter_congr ?_
    intro r hr
    by_cases hrs : r.id ∈ semanticResults.map (fun c => c.id)
    · simp [hrs]
    · simp [hrs, hcov r hr hrs]
  have hperm : List.Perm
      ((reciprocalRankFusion rrfK bm25Results semanticResults bm25OnlyChunks).map
        (fun c => c.id))
      ((buildScoreMap rrfK bm25Results semanticResults bm25OnlyChunks).map
        (fun c => c.id)) := by
    unfold reciprocalRankFusion
    rw [normalizeScores_ids]
    exact (sortByScoreDesc_perm _).map _
  refine ⟨?_, ?_, ?_⟩
  · intro i
    rw [hperm.count_eq, hids_raw, hfilter, List.count_append]
    by_cases hiS : i ∈ semanticResults.map (fun c => c.id)
    · have h1 : (semanticResults.map (fun c => c.id)).count i = 1 :=
        List.count_eq_one_of_mem hndS hiS
      have h2 : ((bm25Results.filter (fun r =>
          !decide (r.id ∈ semanticResults.map (fun c => c.id)))).map
            (fun r => r.id)).count i = 0 := by
        rw [List.count_eq_zero]
        intro hmem
        obtain ⟨r, hrf, hrid⟩ := List.mem_map.1 hmem
        have := List.of_mem_filter hrf
        rw [hrid] at this
        simp [hiS] at this
      rw [h1, h2, if_pos (Or.inl hiS)]
    · by_cases hiB : i ∈ bm25Results.map (fun r => r.id)
      · have h1 : (semanticResults.map (fun c => c.id)).count i = 0 :=
          List.count_eq_zero.2 hiS
        obtain ⟨r, hrb, hrid⟩ := List.mem_map.1 hiB
        have hrf : r ∈ bm25Results.filter (fun r =>
            !decide (r.id ∈ semanticResults.map (fun c => c.id))) := by
          rw [List.mem_filter]
          refine ⟨hrb, ?_⟩
          rw [hrid]
          simp [hiS]
        have hmem : i ∈ (bm25Results.filter (fun r =>
            !decide (r.id ∈ semanticResults.map (fun c => c.id)))).map
              (fun r => r.id) := List.mem_map.2 ⟨r, hrf, hrid⟩
        have hnodup : ((bm25Results.filter (fun r =>
            !decide (r.id ∈ semanticResults.map (fun c => c.id)))).map
              (fun r => r.id)).Nodup :=
          List.Nodup.sublist (List.Sublist.map _ (List.filter_sublist _)) hndB
        rw [h1, List.count_eq_one_of_mem hnodup hmem, if_pos (Or.inr hiB)]
      · rw [List.count_eq_zero.2 hiS, List.count_eq_zero.2 ?_, if_neg ?_]
        · rintro (h | h)
          · exact hiS h
          · exact hiB h
        · intro hmem
          obtain ⟨r, hrf, hrid⟩ := List.mem_map.1 hmem
          exact hiB (List.mem_map.2 ⟨r, List.mem_of_mem_filter hrf, hrid⟩)
  · intro j c hj hnotb
    have hpres := bm25PassFrom_get_not_mem rrfK bm25OnlyChunks bm25Results 0
      (semPassFrom rrfK 0 semanticResults []) c.id hnotb
    unfold buildScoreMap
    rw [hpres, hsem_eq]
    have := semMapped_get rrfK semanticResults 0 j c hj hndS
    simpa using this
  · intro j r hj hnots
    have hsome := hcov r (List.getElem?_mem hj) hnots
    cases hch : chunkLookup bm25OnlyChunks r.id with
    | none =>
      rw [hch] at hsome
      simp at hsome
    | some ch =>
      have hnotm : r.id ∉ (semPassFrom rrfK 0 semanticResults []).map (fun c => c.id) := by
        rw [hids_sem]
        exact hnots
      have hget := bm25PassFrom_get_new rrfK bm25OnlyChunks bm25Results 0 j
        (semPassFrom rrfK 0 semanticResults []) r ch hndB hj hnotm hch
      refine ⟨_, hget, ?_⟩
      simp

/-- Witness for C3 at a one-element semantic list, one BM25-only hit and its
fetched chunk. -/
theorem rrf_fusion_completeness_witness :
    (∀ i : ℕ,
      ((reciprocalRankFusion 60 [⟨5, 2⟩] [⟨1, "t", "ti", "u", "h", 9 / 10⟩]
        [⟨5, "t5", "ti5", "u5", "h5"⟩]).map (fun c => c.id)).count i =
        if i ∈ [⟨1, "t", "ti", "u", "h", (9 : ℚ) / 10⟩].map (fun (c : Cand) => c.id) ∨
            i ∈ [⟨5, (2 : ℚ)⟩].map (fun (r : SparseHit) => r.id)
        then 1 else 0) ∧
    (∀ (j : ℕ) (c : Cand), [⟨1, "t", "ti", "u", "h", (9 : ℚ) / 10⟩][j]? = some c →
      c.id ∉ [⟨5, (2 : ℚ)⟩].map (fun (r : SparseHit) => r.id) →
      mapGet (buildScoreMap 60 [⟨5, 2⟩] [⟨1, "t", "ti", "u", "h", 9 / 10⟩]
        [⟨5, "t5", "ti5", "u5", "h5"⟩]) c.id = some { c with score := rrfScore 60 j }) ∧
    (∀ (j : ℕ) (r : SparseHit), [⟨5, (2 : ℚ)⟩][j]? = some r →
      r.id ∉ [⟨1, "t", "ti", "u", "h", (9 : ℚ) / 10⟩].map (fun (c : Cand) => c.id) →
      ∃ e : Cand,
        mapGet (buildScoreMap 60 [⟨5, 2⟩] [⟨1, "t", "ti", "u", "h", 9 / 10⟩]
          [⟨5, "t5", "ti5", "u5", "h5"⟩]) r.id = some e ∧ e.score = rrfScore 60 j) :=
  rrf_fusion_completeness 60 [⟨5, 2⟩] [⟨1, "t", "ti", "u", "h", 9 / 10⟩]
    [⟨5, "t5", "ti5", "u5", "h5"⟩] (by decide) (by decide) (by decide)

/-- C9: a BM25-only hit whose metadata is unavailable from the store is
dropped from the fused set, while the fused set still consists of exactly the
semantic ids plus the covered BM25-only ids; the fusion is a total function,
so the request as a whole cannot fail. -/
theorem rrf_dropped_candidate (rrfK : ℕ) (bm25Results : List SparseHit)
    (semanticResults : List Cand) (bm25OnlyChunks : List DChunk)
    (hndS : (semanticResults.map (fun c => c.id)).Nodup)
    (hndB : (bm25Results.map (fun r => r.id)).Nodup)
    (r0 : SparseHit) (h0mem : r0 ∈ bm25Results)
    (h0sem : r0.id ∉ semanticResults.map (fun c => c.id))
    (h0chunk : chunkLookup bm25OnlyChunks r0.id = none) :
    r0.id ∉ (reciprocalRankFusion rrfK bm25Results semanticResults bm25OnlyChunks).map
      (fun c => c.id) ∧
    List.Perm
      ((reciprocalRankFusion rrfK bm25Results semanticResults bm25OnlyChunks).map
        (fun c => c.id))
      (semanticResults.map (fun c => c.id) ++
        (bm25Results.filter (fun r =>
          !decide (r.id ∈ semanticResults.map (fun c => c.id)) &&
            (chunkLookup bm25OnlyChunks r.id).isSome)).map (fun r => r.id)) := by
  have hsem_eq : semPassFrom rrfK 0 semanticResults [] = semMapped rrfK 0 semanticResults := by
    have := semPassFrom_eq semanticResults rrfK 0 [] hndS (by simp)
    simpa using this
  have hids_sem : (semPassFrom rrfK 0 semanticResults []).map (fun c => c.id) =
      semanticResults.map (fun c => c.id) := by
    rw [hsem_eq, semMapped_ids]
  have hids_raw :
      (buildScoreMap rrfK bm25Results semanticResults bm25OnlyChunks).map (fun c => c.id) =
        semanticResults.map (fun c => c.id) ++
          (bm25Results.filter (fun r =>
            !decide (r.id ∈ semanticResults.map (fun c => c.id)) &&
              (chunkLookup bm25OnlyChunks r.id).isSome)).map (fun r => r.id) := by
    unfold buildScoreMap
    rw [bm25PassFrom_ids rrfK bm25OnlyChunks bm25Results 0 _ hndB]
    simp only [hids_sem]
  have hperm : List.Perm
      ((reciprocalRankFusion rrfK bm25Results semanticResults bm25OnlyChunks).map
        (fun c => c.id))
      (semanticResults.map (fun c => c.id) ++
        (bm25Results.filter (fun r =>
          !decide (r.id ∈ semanticResults.map (fun c => c.id)) &&
            (chunkLookup bm25OnlyChunks r.id).isSome)).map (fun r => r.id)) := by
    have hp : List.Perm
        ((reciprocalRankFusion rrfK bm25Results semanticResults bm25OnlyChunks).map
          (fun c => c.id))
        ((buildScoreMap rrfK bm25Results semanticResults bm25OnlyChunks).map
          (fun c => c.id)) := by
      unfold reciprocalRankFusion
      rw [normalizeScores_ids]
      exact (sortByScoreDesc_perm _).map _
    rw [hids_raw] at hp
    exact hp
  refine ⟨?_, hperm⟩
  intro hmem
  rcases List.mem_append.1 (hperm.mem_iff.1 hmem) with h | h
  · exact h0sem h
  · obtain ⟨r, hrf, hrid⟩ := List.mem_map.1 h
    have hcond := List.of_mem_filter hrf
    rw [hrid, h0chunk] at hcond
    simp at hcond

/-- Witness for C9: the uncovered BM25-only hit `5` is dropped while the
semantic candidate `1` survives. -/
theorem rrf_dropped_candidate_witness :
    (5 : ℕ) ∉ (reciprocalRankFusion 60 [⟨5, 2⟩] [⟨1, "t", "ti", "u", "h", 9 / 10⟩] []).map
      (fun c => c.id) ∧
    List.Perm
      ((reciprocalRankFusion 60 [⟨5, 2⟩] [⟨1, "t", "ti", "u", "h", 9 / 10⟩] []).map
        (fun c => c.id))
      ([⟨1, "t", "ti", "u", "h", (9 : ℚ) / 10⟩].map (fun (c : Cand) => c.id) ++
        ([⟨5, (2 : ℚ)⟩].filter (fun (r : SparseHit) =>
          !decide (r.id ∈ [⟨1, "t", "ti", "u", "h", (9 : ℚ) / 10⟩].map
            (fun (c : Cand) => c.id)) &&
            (chunkLookup [] r.id).isSome)).map (fun (r : SparseHit) => r.id)) := by
  have h := rrf_dropped_candidate 60 [⟨5, 2⟩] [⟨1, "t", "ti", "u", "h", 9 / 10⟩] []
    (by decide) (by decide) ⟨5, 2⟩ (by decide) (by decide) (by decide)
  exact ⟨h.1, h.2⟩

/-! ## Retrieval-level lemmas (C1, C10) -/

/-- On a cache miss, `retrieve` computes: hybrid search over `topK * 2`
candidates, truncation to `topK`, threshold filter. -/
theorem retrieve_miss_eq (B : Backends) (cache : Cache) (question : String)
    (topK : ℕ) (t : ℚ)
    (hmiss : cacheGet cache (getCacheKey question topK) = none) :
    (retrieve B cache question topK t).1 =
      ((hybridSearch B question (topK * 2)).take topK).filter
        (fun r => decide (t ≤ r.score)) := by
  unfold retrieve
  simp only [hmiss, hybridEnabled, if_true]

/-- The hybrid search output is sorted by non-increasing fused score. -/
theorem hybridSearch_sorted (B : Backends) (question : String) (topK : ℕ) :
    (hybridSearch B question topK).Pairwise candDesc := by
  unfold hybridSearch reciprocalRankFusion
  exact normalizeScores_sorted _ (sortByScoreDesc_sorted _)

/-- When the raw fused sums are not all equal, the last normalized candidate
scores exactly `0`. -/
theorem normalizeScores_getLast_zero (l : List Cand) (hs : l.Pairwise candDesc)
    (x y : Cand) (hx : x ∈ l) (hy : y ∈ l) (hne : x.score ≠ y.score) :
    ∀ c : Cand, (normalizeScores l).getLast? = some c → c.score = 0 := by
  match l with
  | [] => cases hx
  | top :: rest =>
    intro c hc
    have hxt : x.score ≤ top.score := sorted_head_top top rest hs x hx
    have hyt : y.score ≤ top.score := sorted_head_top top rest hs y hy
    have hxl : ((top :: rest).getLastD top).score ≤ x.score :=
      sorted_getLastD_le _ top hs x hx
    have hyl : ((top :: rest).getLastD top).score ≤ y.score :=
      sorted_getLastD_le _ top hs y hy
    have hrange : 0 < top.score - ((top :: rest).getLastD top).score := by
      by_contra hcon
      push_neg at hcon
      have h1 : x.score = ((top :: rest).getLastD top).score := le_antisymm (by linarith) hxl
      have h2 : y.score = ((top :: rest).getLastD top).score := le_antisymm (by linarith) hyl
      exact hne (h1.trans h2.symm)
    simp only [normalizeScores] at hc
    rw [if_pos hrange] at hc
    rw [List.getLast?_map] at hc
    rw [getLast?_cons_eq_getLastD] at hc
    rw [Option.map_some'] at hc
    have hc2 := Option.some.inj hc
    rw [← hc2]
    show (((top :: rest).getLastD top).score - ((top :: rest).getLastD top).score) /
      (top.score - ((top :: rest).getLastD top).score) = 0
    rw [sub_self, zero_div]

/-- C1 (amended): on every call that is not answered from the cache, the
returned list is ordered by non-increasing fused score, contains at most
`topK` candidates, every returned score is at least `similarityThreshold`,
and raising the threshold (on cache-miss calls with the other arguments
fixed) never increases the size of the returned set. -/
theorem retrieve_miss_spec (B : Backends) (cache : Cache) (question : String)
    (topK : ℕ) (t : ℚ)
    (hmiss : cacheGet cache (getCacheKey question topK) = none) :
    ((retrieve B cache question topK t).1.Pairwise candDesc) ∧
    (retrieve B cache question topK t).1.length ≤ topK ∧
    (∀ r ∈ (retrieve B cache question topK t).1, t ≤ r.score) ∧
    (∀ t' : ℚ, t ≤ t' → ∀ cache' : Cache,
      cacheGet cache' (getCacheKey question topK) = none →
      (retrieve B cache' question topK t').1.length ≤
        (retrieve B cache question topK t).1.length) := by
  rw [retrieve_miss_eq B cache question topK t hmiss]
  refine ⟨?_, ?_, ?_, ?_⟩
  · exact List.Pairwise.sublist
      ((List.filter_sublist _).trans (List.take_sublist _ _))
      (hybridSearch_sorted B question (topK * 2))
  · exact le_trans (List.length_filter_le _ _) (List.length_take_le _ _)
  · intro r hr
    have := List.of_mem_filter hr
    simpa using this
  · intro t' ht' cache' hmiss'
    rw [retrieve_miss_eq B cache' question topK t' hmiss']
    refine length_filter_mono _ _ _ ?_
    intro x _ hx
    simp only [decide_eq_true_eq] at hx ⊢
    linarith

/-- Witness for C1's amended theorem on an empty cache. -/
theorem retrieve_miss_spec_witness :
    ((retrieve ⟨fun _ _ => [], fun _ _ => [], fun _ => []⟩ [] "q" 3 (1 / 2)).1.Pairwise
      candDesc) ∧
    (retrieve ⟨fun _ _ => [], fun _ _ => [], fun _ => []⟩ [] "q" 3 (1 / 2)).1.length ≤ 3 ∧
    (∀ r ∈ (retrieve ⟨fun _ _ => [], fun _ _ => [], fun _ => []⟩ [] "q" 3 (1 / 2)).1,
      (1 : ℚ) / 2 ≤ r.score) ∧
    (∀ t' : ℚ, (1 : ℚ) / 2 ≤ t' → ∀ cache' : Cache,
      cacheGet cache' (getCacheKey "q" 3) = none →
      (retrieve ⟨fun _ _ => [], fun _ _ => [], fun _ => []⟩ cache' "q" 3 t').1.length ≤
        (retrieve ⟨fun _ _ => [], fun _ _ => [], fun _ => []⟩ [] "q" 3 (1 / 2)).1.length) :=
  retrieve_miss_spec ⟨fun _ _ => [], fun _ _ => [], fun _ => []⟩ [] "q" 3 (1 / 2) rfl

/-- Normalization of a strictly descending pair: top score becomes `1`, the
bottom one `0`. -/
theorem normalizeScores_pair (a b : Cand) (h : b.score < a.score) :
    normalizeScores [a, b] = [{ a with score := 1 }, { b with score := 0 }] := by
  have hrange : (0 : ℚ) < a.score - b.score := by linarith
  have hlast : ([a, b].getLastD a) = b := by
    rw [List.getLastD_cons, List.getLastD_cons]
    rfl
  simp only [normalizeScores, hlast]
  rw [if_pos hrange]
  simp only [List.map_cons, List.map_nil]
  have h1 : (a.score - b.score) / (a.score - b.score) = 1 := div_self (by linarith)
  have h2 : (b.score - b.score) / (a.score - b.score) = 0 := by
    rw [sub_self, zero_div]
  rw [h1, h2]

/-- A fresh cache entry is returned by a lookup of its key. -/
theorem cacheGet_cacheSet (cache : Cache) (k : String) (v : List Cand) :
    cacheGet (cacheSet cache k v) k = some v := by
  unfold cacheGet cacheSet
  rw [List.find?_cons_of_pos]
  · rfl
  · simp

/-- Deterministic backends with two semantic hits and no sparse hits, used to
exercise the cache behaviour of `retrieve` on concrete inputs. -/
def demoBackends : Backends :=
  ⟨fun _ _ => [⟨1, "", "", "", "", 9 / 10⟩, ⟨2, "", "", "", "", 1 / 2⟩],
   fun _ _ => [], fun _ => []⟩

/-- The raw fused map of the demo backends: the two semantic candidates with
their rank-0 and rank-1 RRF contributions. -/
theorem demo_raw_eval :
    buildScoreMap serviceRrfK (hybridStage demoBackends "q" 4).1
      (hybridStage demoBackends "q" 4).2.1 (hybridStage demoBackends "q" 4).2.2 =
    [⟨1, "", "", "", "", rrfScore 60 0⟩, ⟨2, "", "", "", "", rrfScore 60 1⟩] := rfl

/-- The demo fused output: normalized scores `1` and `0`. -/
theorem demo_hybrid_eval :
    hybridSearch demoBackends "q" 4 =
      [⟨1, "", "", "", "", 1⟩, ⟨2, "", "", "", "", 0⟩] := by
  have hlt : rrfScore 60 1 < rrfScore 60 0 := by
    unfold rrfScore
    push_cast
    norm_num
  unfold hybridSearch reciprocalRankFusion
  rw [demo_raw_eval]
  have hsorted : sortByScoreDesc
      [⟨1, "", "", "", "", rrfScore 60 0⟩, ⟨2, "", "", "", "", rrfScore 60 1⟩] =
      [⟨1, "", "", "", "", rrfScore 60 0⟩, ⟨2, "", "", "", "", rrfScore 60 1⟩] := by
    unfold sortByScoreDesc
    refine List.Sorted.insertionSort_eq ?_
    refine List.pairwise_cons.2 ⟨?_, ?_⟩
    · intro b hb
      rw [List.mem_singleton.1 hb]
      exact le_of_lt hlt
    · simp
  rw [hsorted]
  exact normalizeScores_pair _ _ hlt

/-- Evaluation of the cache-filling call `retrieve(q, 2, 0)` on the demo
backends. -/
theorem demo_retrieve0 :
    retrieve demoBackends [] "q" 2 0 =
      ([⟨1, "", "", "", "", 1⟩, ⟨2, "", "", "", "", 0⟩],
       cacheSet [] (getCacheKey "q" 2) [⟨1, "", "", "", "", 1⟩, ⟨2, "", "", "", "", 0⟩]) := by
  unfold retrieve
  have hmiss : cacheGet [] (getCacheKey "q" 2) = none := rfl
  simp only [hmiss, hybridEnabled, if_true]
  have h4 : (2 : ℕ) * 2 = 4 := rfl
  rw [h4, demo_hybrid_eval]
  have htake : ([⟨1, "", "", "", "", 1⟩, ⟨2, "", "", "", "", 0⟩] : List Cand).take 2 =
      [⟨1, "", "", "", "", 1⟩, ⟨2, "", "", "", "", 0⟩] := rfl
  rw [htake]
  have hfilter : ([⟨1, "", "", "", "", 1⟩, ⟨2, "", "", "", "", 0⟩] : List Cand).filter
      (fun r => decide ((0 : ℚ) ≤ r.score)) =
      [⟨1, "", "", "", "", 1⟩, ⟨2, "", "", "", "", 0⟩] := by
    simp only [List.filter_cons, List.filter_nil]
    rw [if_pos (by norm_num), if_pos (by norm_num)]
  rw [hfilter]

/-- C1 counterexample: the cache key omits the similarity threshold, so a
call answered from the cache can return candidates below its own threshold —
here `retrieve(q, 2, 1/2)` served from the cache written by
`retrieve(q, 2, 0)` returns a candidate with fused score `0 < 1/2`. -/
theorem retrieve_cache_threshold_counterexample :
    ∃ r ∈ (retrieve demoBackends (retrieve demoBackends [] "q" 2 0).2 "q" 2 (1 / 2)).1,
      r.score < 1 / 2 := by
  rw [demo_retrieve0]
  have hhit : (retrieve demoBackends
      (cacheSet [] (getCacheKey "q" 2) [⟨1, "", "", "", "", 1⟩, ⟨2, "", "", "", "", 0⟩])
      "q" 2 (1 / 2)).1 = [⟨1, "", "", "", "", 1⟩, ⟨2, "", "", "", "", 0⟩] := by
    unfold retrieve
    simp only [cacheGet_cacheSet]
  rw [hhit]
  refine ⟨⟨2, "", "", "", "", 0⟩, ?_, by norm_num⟩
  exact List.mem_cons_of_mem _ (List.mem_singleton.2 rfl)

/-- C10 (amended): on a call not answered from the cache, whenever the fused
map holds at least two distinct raw RRF sums, the last (lowest-ranked) fused
candidate's normalized score is exactly `0`, and it is excluded from the
result of `retrieve` for every strictly positive threshold. -/
theorem rrf_last_zero_excluded (B : Backends) (cache : Cache) (question : String)
    (topK : ℕ) (t : ℚ)
    (hmiss : cacheGet cache (getCacheKey question topK) = none)
    (ht : 0 < t)
    (hdist : ∃ x ∈ buildScoreMap serviceRrfK (hybridStage B question (topK * 2)).1
        (hybridStage B question (topK * 2)).2.1 (hybridStage B question (topK * 2)).2.2,
      ∃ y ∈ buildScoreMap serviceRrfK (hybridStage B question (topK * 2)).1
        (hybridStage B question (topK * 2)).2.1 (hybridStage B question (topK * 2)).2.2,
        x.score ≠ y.score)
    (c : Cand)
    (hlast : (hybridSearch B question (topK * 2)).getLast? = some c) :
    c.score = 0 ∧ c ∉ (retrieve B cache question topK t).1 := by
  obtain ⟨x, hx, y, hy, hne⟩ := hdist
  have hx' : x ∈ sortByScoreDesc (buildScoreMap serviceRrfK
      (hybridStage B question (topK * 2)).1 (hybridStage B question (topK * 2)).2.1
      (hybridStage B question (topK * 2)).2.2) :=
    (sortByScoreDesc_perm _).mem_iff.2 hx
  have hy' : y ∈ sortByScoreDesc (buildScoreMap serviceRrfK
      (hybridStage B question (topK * 2)).1 (hybridStage B question (topK * 2)).2.1
      (hybridStage B question (topK * 2)).2.2) :=
    (sortByScoreDesc_perm _).mem_iff.2 hy
  unfold hybridSearch reciprocalRankFusion at hlast
  have hzero : c.score = 0 :=
    normalizeScores_getLast_zero _ (sortByScoreDesc_sorted _) x y hx' hy' hne c hlast
  refine ⟨hzero, ?_⟩
  intro hcmem
  rw [retrieve_miss_eq B cache question topK t hmiss] at hcmem
  have hts := List.of_mem_filter hcmem
  simp only [decide_eq_true_eq] at hts
  rw [hzero] at hts
  linarith

/-- Witness for C10's amended theorem on the demo backends: the lowest fused
candidate has two distinct raw sums above it, scores `0` after
normalization, and is excluded at threshold `1/2`. -/
theorem rrf_last_zero_excluded_witness :
    (⟨2, "", "", "", "", 0⟩ : Cand).score = 0 ∧
    (⟨2, "", "", "", "", 0⟩ : Cand) ∉ (retrieve demoBackends [] "q" 2 (1 / 2)).1 := by
  refine rrf_last_zero_excluded demoBackends [] "q" 2 (1 / 2) rfl (by norm_num) ?_ _ ?_
  · refine ⟨⟨1, "", "", "", "", rrfScore 60 0⟩, ?_, ⟨2, "", "", "", "", rrfScore 60 1⟩, ?_, ?_⟩
    · rw [demo_raw_eval]
      exact List.mem_cons_self _ _
    · rw [demo_raw_eval]
      exact List.mem_cons_of_mem _ (List.mem_singleton.2 rfl)
    · show rrfScore 60 0 ≠ rrfScore 60 1
      unfold rrfScore
      push_cast
      norm_num
  · rw [show (2 * 2 : ℕ) = 4 from rfl, demo_hybrid_eval]
    rfl

/-- C10 counterexample: the exclusion fails on a cache-answered call — after
`retrieve(q, 2, 0)` fills the cache, the fused map has two distinct raw sums
and the lowest candidate scores `0`, yet `retrieve(q, 2, 1/2)` (strictly
positive threshold) returns it from the cache. -/
theorem rrf_last_zero_cache_counterexample :
    (∃ x ∈ buildScoreMap serviceRrfK (hybridStage demoBackends "q" 4).1
        (hybridStage demoBackends "q" 4).2.1 (hybridStage demoBackends "q" 4).2.2,
      ∃ y ∈ buildScoreMap serviceRrfK (hybridStage demoBackends "q" 4).1
        (hybridStage demoBackends "q" 4).2.1 (hybridStage demoBackends "q" 4).2.2,
        x.score ≠ y.score) ∧
    (hybridSearch demoBackends "q" 4).getLast? = some ⟨2, "", "", "", "", 0⟩ ∧
    (0 : ℚ) < 1 / 2 ∧
    (⟨2, "", "", "", "", 0⟩ : Cand) ∈
      (retrieve demoBackends (retrieve demoBackends [] "q" 2 0).2 "q" 2 (1 / 2)).1 := by
  refine ⟨?_, ?_, by norm_num, ?_⟩
  · refine ⟨⟨1, "", "", "", "", rrfScore 60 0⟩, ?_, ⟨2, "", "", "", "", rrfScore 60 1⟩, ?_, ?_⟩
    · rw [demo_raw_eval]
      exact List.mem_cons_self _ _
    · rw [demo_raw_eval]
      exact List.mem_cons_of_mem _ (List.mem_singleton.2 rfl)
    · show rrfScore 60 0 ≠ rrfScore 60 1
      unfold rrfScore
      push_cast
      norm_num
  · rw [demo_hybrid_eval]
    rfl
  · rw [demo_retrieve0]
    have hhit : (retrieve demoBackends
        (cacheSet [] (getCacheKey "q" 2) [⟨1, "", "", "", "", 1⟩, ⟨2, "", "", "", "", 0⟩])
        "q" 2 (1 / 2)).1 = [⟨1, "", "", "", "", 1⟩, ⟨2, "", "", "", "", 0⟩] := by
      unfold retrieve
      simp only [cacheGet_cacheSet]
    rw [hhit]
    exact List.mem_cons_of_mem _ (List.mem_singleton.2 rfl)
